import Mathlib

/-!
# Sequential model of the progress64 hash table (src/p64_hashtable.c)

The table is an array of buckets, each bucket holding `BKT_SIZE` head slots.
Every head slot and every caller-owned entry is a pair `(hash, next)`; `next`
is a tagged pointer whose bit 0 is the REMOVE mark.  Pointers are natural
numbers (`0` is `NULL`), hashes are natural numbers.  Memory is split into the
head slots of the table and the caller-owned entry records, addressed by the
pointer value.  Loops of the source that have no syntactic bound take a fuel
argument.  Of the hazard-pointer calls `hp_acquire` returns the pointer it
loads and is modelled as that load; `hp_release` and `hp_release_ro` only
clear a reservation, touch neither the table nor the entries, and do not
appear in the model.  Assertions are enabled (`NDEBUG` is not defined), so
`nused` is maintained.
-/

namespace P64

/-- Result of running a piece of the source: it returns a value, it stops in
`assert`/`abort()`, it executes an undefined operation (division by zero, a
`NULL` dereference), or the model ran out of fuel. -/
inductive Outcome (α : Type) where
  | done (a : α)
  | abort
  | undef
  | nofuel
deriving DecidableEq, Repr

/-- Macro `MARK_REMOVE`, defined as `1UL`. -/
def MARK_REMOVE : Nat := 1

/-- Macro `HAS_MARK(ptr)`, defined as `((uintptr_t)(ptr) & MARK_REMOVE) != 0`. -/
def HAS_MARK (ptr : Nat) : Bool := (ptr &&& MARK_REMOVE) != 0

/-- Macro `SET_MARK(ptr)`, defined as `(uintptr_t)(ptr) | MARK_REMOVE`. -/
def SET_MARK (ptr : Nat) : Nat := ptr ||| MARK_REMOVE

/-- Macro `REM_MARK(ptr)`, defined as `(uintptr_t)(ptr) & ~MARK_REMOVE`: bit 0
is cleared, every other bit is kept. -/
def REM_MARK (ptr : Nat) : Nat := ptr - (ptr &&& MARK_REMOVE)

/-- Modelled from the spec: `BKT_SIZE` is `CACHE_LINE / (2 * __SIZEOF_POINTER__)`
and `CACHE_LINE` comes from `build_config.h`, which is not among the sources.
The comment next to the macro and the spec give a 64-byte line and 8-byte
pointers, so the value is 4; it is an `int` constant, so that a sum with a
`uint32_t` is computed in 32 bits. -/
def BKT_SIZE : Nat := 4

/-- Modelled from the spec: `struct p64_hashentry` is declared in
`p64_hashtable.h`, which is not among the sources; it has the two fields the
source reads and writes, `hash` and `next`, the pair that one double-width
CAS covers. -/
structure p64_hashentry where
  hash : Nat
  next : Nat
deriving DecidableEq, Repr

/-- Target of a `struct p64_hashentry *` that is dereferenced: a head slot
`&ht->buckets[bix].entries[i]` or the entry record at address `p`. -/
inductive Loc where
  | head (bix i : Nat)
  | node (p : Nat)
deriving DecidableEq, Repr

/-- Memory the operations work on: `struct p64_hashtable` (`nbkts`, `nused`
and the head slots `buckets bix i`) together with the caller-owned entry
records (`mem p` is the record at address `p`). -/
structure State where
  nbkts : Nat
  nused : Nat
  buckets : Nat → Nat → p64_hashentry
  mem : Nat → p64_hashentry

/-- Read of the pair at a location. -/
def State.load (s : State) : Loc → p64_hashentry
  | .head bix i => s.buckets bix i
  | .node p => s.mem p

/-- Write of the pair at a location. -/
def State.store (s : State) (l : Loc) (v : p64_hashentry) : State :=
  match l with
  | .head bix i =>
    { s with buckets := fun b j => if b = bix ∧ j = i then v else s.buckets b j }
  | .node p =>
    { s with mem := fun q => if q = p then v else s.mem q }

/-- Function `p64_hashtable_alloc`, when `calloc` succeeds: the sum
`nentries + BKT_SIZE - 1` is computed in 32-bit unsigned arithmetic.  `mem` is
the caller-owned memory, which the allocation does not touch. -/
def p64_hashtable_alloc (nentries : Nat) (mem : Nat → p64_hashentry) : State :=
  { nbkts := ((nentries + BKT_SIZE - 1) % 2 ^ 32) / BKT_SIZE
    nused := 0
    buckets := fun _ _ => ⟨0, 0⟩
    mem := mem }

/-- Modelled from the spec: `hp_acquire` lives in the hazard-pointer module,
which is not among the sources.  It publishes the pointer read from `*loc` and
returns it; without concurrent writers that is the `next` field at `loc`. -/
def hp_acquire (s : State) (loc : Loc) : Nat := (s.load loc).next

/-- The `while (mask != 0)` loop of `bucket_lookup`; the set bits of `mask`
are the list of slot indices in ascending order (`__builtin_ffs` picks the
lowest). -/
def bucket_lookup_loop (s : State) (bkt : Nat) (cf : Nat → Nat → Int) (key : Nat) :
    List Nat → Outcome Nat
  | [] => .done 0
  | i :: mask =>
    let he := hp_acquire s (.head bkt i)
    if REM_MARK he ≠ he then .abort
    else if he ≠ 0 ∧ cf he key = 0 then .done he
    else bucket_lookup_loop s bkt cf key mask

/-- Function `bucket_lookup`: the mask of head slots whose stored hash equals
`hash` is computed first, then scanned. -/
def bucket_lookup (s : State) (bkt : Nat) (cf : Nat → Nat → Int) (key hash : Nat) :
    Outcome Nat :=
  bucket_lookup_loop s bkt cf key
    ((List.range BKT_SIZE).filter (fun i => (s.buckets bkt i).hash = hash))

/-- Function `list_lookup`; it takes no hash and compares with `cf` only. -/
def list_lookup (s : State) (cf : Nat → Nat → Int) (key : Nat) : Nat → Loc → Outcome Nat
  | 0, _ => .nofuel
  | fuel + 1, prnt =>
    let this := REM_MARK (hp_acquire s prnt)
    if this = 0 then .done 0
    else if cf this key = 0 then .done this
    else list_lookup s cf key fuel (.node this)

/-- Function `p64_hashtable_lookup`; a table without buckets makes the
modulo undefined, and `bix` is below `nbkts`, so its conversion to
`uint32_t` changes nothing. -/
def p64_hashtable_lookup (fuel : Nat) (s : State) (cf : Nat → Nat → Int) (key hash : Nat) :
    Outcome Nat :=
  if s.nbkts = 0 then .undef
  else
    let bix := (hash / BKT_SIZE) % s.nbkts
    match bucket_lookup s bix cf key hash with
    | .done he =>
      if he ≠ 0 then .done he
      else list_lookup s cf key fuel (.head bix (hash % BKT_SIZE))
    | .abort => .abort
    | .undef => .undef
    | .nofuel => .nofuel

/-- The `__atomic_fetch_or(&this->next, MARK_REMOVE, ...)` of `remove_node`. -/
def remove_node_mark (s : State) (this : Nat) : State :=
  s.store (.node this) ⟨(s.mem this).hash, SET_MARK (s.mem this).next⟩

/-- Function `remove_node`: result is the new state, the returned flag and the
updated `*removed`. -/
def remove_node (s : State) (prnt : Loc) (this hash : Nat) (removed : Int) :
    Outcome (State × Bool × Int) :=
  if this ≠ REM_MARK this then .abort
  else if this = 0 then .undef
  else
    let s1 := remove_node_mark s this
    let old : p64_hashentry := ⟨hash, this⟩
    let neu : p64_hashentry := ⟨(s1.mem this).hash, REM_MARK (s1.mem this).next⟩
    let cur := s1.load prnt
    if cur = old then .done (s1.store prnt neu, true, removed + 1)
    else if REM_MARK cur.next ≠ this then .done (s1, true, removed)
    else if cur.next ≠ SET_MARK this then .abort
    else .done (s1, false, removed)

/-- Function `insert_node`: result is the new state and the returned pointer. -/
def insert_node (s : State) (prnt : Loc) (he hash : Nat) : Outcome (State × Nat) :=
  if (s.mem he).hash ≠ 0 then .abort
  else if (s.mem he).next ≠ 0 then .abort
  else
    let old : p64_hashentry := ⟨0, 0⟩
    let neu : p64_hashentry := ⟨hash, he⟩
    let cur := s.load prnt
    if cur = old then .done (s.store prnt neu, 0)
    else .done (s, cur.next)

/-- The `while (mask != 0)` loop of `bucket_insert`. -/
def bucket_insert_loop (bkt he hash : Nat) : List Nat → State → Outcome (State × Bool)
  | [], s => .done (s, false)
  | i :: mask, s =>
    match insert_node s (.head bkt i) he hash with
    | .done (s1, r) =>
      if r = 0 then .done (s1, true) else bucket_insert_loop bkt he hash mask s1
    | .abort => .abort
    | .undef => .undef
    | .nofuel => .nofuel

/-- Function `bucket_insert`: the mask of head slots with `next == NULL` is
computed first, then tried in ascending order. -/
def bucket_insert (s : State) (bkt he hash : Nat) : Outcome (State × Bool) :=
  bucket_insert_loop bkt he hash
    ((List.range BKT_SIZE).filter (fun i => (s.buckets bkt i).next = 0)) s

/-- Function `list_insert`: result is the new state and the updated `*removed`. -/
def list_insert (org : Loc) (he hash : Nat) :
    Nat → State → Loc → Int → Outcome (State × Int)
  | 0, _, _, _ => .nofuel
  | fuel + 1, s, prnt, removed =>
    let this := REM_MARK (hp_acquire s prnt)
    if this = 0 then
      match insert_node s prnt he hash with
      | .done (s1, old) =>
        if old = 0 then .done (s1, removed)
        else if HAS_MARK old then list_insert org he hash fuel s1 org removed
        else list_insert org he hash fuel s1 prnt removed
      | .abort => .abort
      | .undef => .undef
      | .nofuel => .nofuel
    else if this = he then .abort
    else if HAS_MARK (s.mem this).next then
      match remove_node s prnt this (s.load prnt).hash removed with
      | .done (s1, true, removed1) => list_insert org he hash fuel s1 prnt removed1
      | .done (s1, false, removed1) => list_insert org he hash fuel s1 org removed1
      | .abort => .abort
      | .undef => .undef
      | .nofuel => .nofuel
    else list_insert org he hash fuel s (.node this) removed

/-- Value left by `__atomic_fetch_sub(&ht->nused, removed, ...)` in the
`uint32_t` counter. -/
def nused_sub (nused : Nat) (removed : Int) : Nat :=
  (((nused : Int) - removed) % (2 ^ 32 : Int)).toNat

/-- The `#ifndef NDEBUG` tail shared by insert and remove. -/
def account (s : State) (removed : Int) : State :=
  if removed ≠ 0 then { s with nused := nused_sub s.nused removed } else s

/-- Function `p64_hashtable_insert`; writing `he->hash` through a `NULL`
`he` is undefined. -/
def p64_hashtable_insert (fuel : Nat) (s : State) (he hash : Nat) : Outcome State :=
  if s.nbkts = 0 then .undef
  else if he = 0 then .undef
  else
    let bix := (hash / BKT_SIZE) % s.nbkts
    let s0 := s.store (.node he) ⟨0, 0⟩
    match bucket_insert s0 bix he hash with
    | .done (s1, true) => .done (account s1 (-1))
    | .done (s1, false) =>
      let prnt := Loc.head bix (hash % BKT_SIZE)
      match list_insert prnt he hash fuel s1 prnt (-1) with
      | .done (s2, removed) => .done (account s2 removed)
      | .abort => .abort
      | .undef => .undef
      | .nofuel => .nofuel
    | .abort => .abort
    | .undef => .undef
    | .nofuel => .nofuel

/-- Function `bucket_remove`: the result of `remove_node` is dropped. -/
def bucket_remove (s : State) (bkt he hash : Nat) (removed : Int) :
    Outcome (State × Bool × Int) :=
  match (List.range BKT_SIZE).filter (fun i => (s.buckets bkt i).next = he) with
  | [] => .done (s, false, removed)
  | i :: _ =>
    match remove_node s (.head bkt i) he hash removed with
    | .done (s1, _, removed1) => .done (s1, true, removed1)
    | .abort => .abort
    | .undef => .undef
    | .nofuel => .nofuel

/-- Function `list_remove`: result is the new state, the returned flag and
the updated `*removed`. -/
def list_remove (org : Loc) (he hash : Nat) :
    Nat → State → Loc → Int → Outcome (State × Bool × Int)
  | 0, _, _, _ => .nofuel
  | fuel + 1, s, prnt, removed =>
    let this := REM_MARK (hp_acquire s prnt)
    if this = 0 then .done (s, false, removed)
    else if this = he then
      match remove_node s prnt this hash removed with
      | .done (s1, true, removed1) => .done (s1, true, removed1)
      | .done (s1, false, removed1) => list_remove org he hash fuel s1 org removed1
      | .abort => .abort
      | .undef => .undef
      | .nofuel => .nofuel
    else if HAS_MARK (s.mem this).next then
      match remove_node s prnt this (s.load prnt).hash removed with
      | .done (s1, true, removed1) => list_remove org he hash fuel s1 prnt removed1
      | .done (s1, false, removed1) => list_remove org he hash fuel s1 org removed1
      | .abort => .abort
      | .undef => .undef
      | .nofuel => .nofuel
    else list_remove org he hash fuel s (.node this) removed

/-- Function `p64_hashtable_remove`. -/
def p64_hashtable_remove (fuel : Nat) (s : State) (he hash : Nat) : Outcome (State × Bool) :=
  if s.nbkts = 0 then .undef
  else
    let bix := (hash / BKT_SIZE) % s.nbkts
    match bucket_remove s bix he hash 0 with
    | .done (s1, true, removed) => .done (account s1 removed, true)
    | .done (s1, false, removed) =>
      let prnt := Loc.head bix (hash % BKT_SIZE)
      match list_remove prnt he hash fuel s1 prnt removed with
      | .done (s2, success, removed1) => .done (account s2 removed1, success)
      | .abort => .abort
      | .undef => .undef
      | .nofuel => .nofuel
    | .abort => .abort
    | .undef => .undef
    | .nofuel => .nofuel


/-! ## Chains and reachable states -/

/-- The chain hanging off location `l` is the list `c` of (entry, stored
parent hash) pairs: every link is a non-null unmarked pointer and the last
entry holds the empty pair. -/
def IsChain (s : State) : Loc → List (Nat × Nat) → Prop
  | l, [] => s.load l = ⟨0, 0⟩
  | l, (e, h) :: c => e ≠ 0 ∧ e % 2 = 0 ∧ s.load l = ⟨h, e⟩ ∧ IsChain s (.node e) c

/-- Location whose `next` is `NULL` at the end of the chain `c` off `l`. -/
def lastLoc : Loc → List (Nat × Nat) → Loc
  | l, [] => l
  | _, (e, _) :: c => lastLoc (.node e) c

/-- Entry `e` is reached from location `l` by following `next` pointers
(marks stripped) through non-null links. -/
inductive PtrReach (s : State) : Loc → Nat → Prop
  | next (l : Loc) : REM_MARK (s.load l).next ≠ 0 → PtrReach s l (REM_MARK (s.load l).next)
  | step (l : Loc) (e : Nat) : REM_MARK (s.load l).next ≠ 0 →
      PtrReach s (.node (REM_MARK (s.load l).next)) e → PtrReach s l e

/-- Entry `e` is linked in the table: some head slot of some bucket reaches it. -/
def Linked (s : State) (e : Nat) : Prop :=
  ∃ b i, b < s.nbkts ∧ i < BKT_SIZE ∧ PtrReach s (.head b i) e


/-- Bucket index computed by lookup, insert and remove. -/
def bucketIndex (s : State) (hash : Nat) : Nat := (hash / BKT_SIZE) % s.nbkts

/-- Sequential runs: `Reach s L` says that `s` is reached from a fresh table by
complete insert and remove calls that obey the preconditions of the API, and
`L` lists the (entry, hash) pairs inserted and not removed since. -/
inductive Reach : State → List (Nat × Nat) → Prop
  | alloc (nentries : Nat) (mem : Nat → p64_hashentry) :
      nentries < 2 ^ 32 → Reach (p64_hashtable_alloc nentries mem) []
  | insert {s s1 : State} {L : List (Nat × Nat)} (fuel he hash : Nat) :
      Reach s L → he ≠ 0 → he % 2 = 0 → he ∉ L.map Prod.fst →
      p64_hashtable_insert fuel s he hash = .done s1 → Reach s1 ((he, hash) :: L)
  | remove {s s1 : State} {L : List (Nat × Nat)} (fuel he hash : Nat) (r : Bool) :
      Reach s L → he ≠ 0 → (∀ h, (he, h) ∈ L → h = hash) →
      p64_hashtable_remove fuel s he hash = .done (s1, r) →
      Reach s1 (L.filter (fun p => p.1 != he))

/-- Representation invariant: `c b i` is the chain off head slot `i` of bucket
`b`, the chains together hold exactly the pairs of `L`, every entry sits in
the bucket of its hash, and past the first position of a chain only entries
with `hash mod BKT_SIZE = i` occur. -/
structure Inv (s : State) (L : List (Nat × Nat)) (c : Nat → Nat → List (Nat × Nat)) : Prop where
  chain : ∀ b i, IsChain s (.head b i) (c b i)
  range : ∀ b i, c b i ≠ [] → b < s.nbkts ∧ i < BKT_SIZE
  sound : ∀ b i p, p ∈ c b i → p ∈ L
  complete : ∀ p ∈ L, ∃ b i, p ∈ c b i
  bkt : ∀ b i p, p ∈ c b i → bucketIndex s p.2 = b
  slot : ∀ b i p, p ∈ (c b i).tail → p.2 % BKT_SIZE = i
  nodupL : (L.map Prod.fst).Nodup
  nodup : ∀ b i, ((c b i).map Prod.fst).Nodup
  disj : ∀ b i b1 i1 e, e ∈ (c b i).map Prod.fst → e ∈ (c b1 i1).map Prod.fst →
    b = b1 ∧ i = i1

/-- Head purity: no head slot carries the REMOVE mark on its `next`. -/
def HeadPure (s : State) : Prop := ∀ b i, HAS_MARK (s.buckets b i).next = false

/-- The ceiling of `n / d` over the natural numbers, as the spec writes the
bucket count. -/
def ceilDiv (n d : Nat) : Nat := (n + d - 1) / d

/-- State carried by an outcome, `dflt` when the run did not return. -/
def stateOf (o : Outcome State) (dflt : State) : State :=
  match o with
  | .done s => s
  | _ => dflt

/-- Example caller memory: every record starts with stale contents. -/
def demoMem : Nat → p64_hashentry := fun _ => ⟨7, 9⟩

/-- Example comparator: the key of an entry is its address. -/
def cmpAddr : Nat → Nat → Int := fun he key => if he = key then 0 else 1

/-- Example table: one bucket, empty. -/
def demo0 : State := p64_hashtable_alloc 4 demoMem

/-- Example table after `insert(16, 5)`. -/
def demo1 : State := stateOf (p64_hashtable_insert 8 demo0 16 5) demo0

/-- Example table after inserting 16, 32, 48, 64 and 80, all with hash 5: the
four head slots are taken and 80 is chained behind 32 off head slot 1. -/
def demo5 : State :=
  stateOf (p64_hashtable_insert 8
    (stateOf (p64_hashtable_insert 8
      (stateOf (p64_hashtable_insert 8
        (stateOf (p64_hashtable_insert 8 demo1 32 5) demo0) 48 5) demo0) 64 5) demo0) 80 5) demo0


/-- Example table after inserting 16, 32, 48 and 64 with hash 5: the four
head slots of the bucket are taken and no entry is chained yet. -/
def demo4 : State :=
  stateOf (p64_hashtable_insert 8
    (stateOf (p64_hashtable_insert 8
      (stateOf (p64_hashtable_insert 8 demo1 32 5) demo0) 48 5) demo0) 64 5) demo0

/-! ## Marks -/

theorem HAS_MARK_eq (p : Nat) : HAS_MARK p = decide (p % 2 = 1) := by
  rw [Bool.eq_iff_iff]
  simp [HAS_MARK, MARK_REMOVE]

theorem REM_MARK_eq (p : Nat) : REM_MARK p = p - p % 2 := by
  simp [REM_MARK, MARK_REMOVE]

theorem REM_MARK_even {p : Nat} (h : p % 2 = 0) : REM_MARK p = p := by
  rw [REM_MARK_eq, h]; rfl

theorem REM_MARK_mod (p : Nat) : REM_MARK p % 2 = 0 := by
  rw [REM_MARK_eq]; omega

theorem HAS_MARK_even {p : Nat} (h : p % 2 = 0) : HAS_MARK p = false := by
  rw [HAS_MARK_eq, h]; rfl

theorem SET_MARK_even {p : Nat} (h : p % 2 = 0) : SET_MARK p = p + 1 := by
  unfold SET_MARK MARK_REMOVE
  obtain ⟨k, rfl⟩ : ∃ k, p = 2 * k := ⟨p / 2, by omega⟩
  have h1 : 2 ^ 1 * k + 1 = 2 ^ 1 * k ||| 1 := Nat.mul_add_lt_is_or (by decide) k
  simpa using h1.symm

theorem REM_SET_MARK_even {p : Nat} (h : p % 2 = 0) : REM_MARK (SET_MARK p) = p := by
  rw [SET_MARK_even h, REM_MARK_eq]; omega

theorem SET_MARK_mod (p : Nat) : SET_MARK p % 2 = 1 := by
  unfold SET_MARK MARK_REMOVE
  exact Nat.or_mod_two_eq_one.mpr (Or.inr rfl)

theorem HAS_MARK_REM_MARK (p : Nat) : HAS_MARK (REM_MARK p) = false :=
  HAS_MARK_even (REM_MARK_mod p)

/-! ## Loads and stores -/

@[simp] theorem nbkts_store (s : State) (l : Loc) (v : p64_hashentry) :
    (s.store l v).nbkts = s.nbkts := by
  cases l <;> rfl

@[simp] theorem nused_store (s : State) (l : Loc) (v : p64_hashentry) :
    (s.store l v).nused = s.nused := by
  cases l <;> rfl

@[simp] theorem load_store_same (s : State) (l : Loc) (v : p64_hashentry) :
    (s.store l v).load l = v := by
  cases l <;> simp [State.store, State.load]

theorem load_store_ne (s : State) {l k : Loc} (v : p64_hashentry) (h : k ≠ l) :
    (s.store l v).load k = s.load k := by
  cases l <;> cases k <;> simp_all [State.store, State.load]

theorem load_node (s : State) (p : Nat) : s.load (.node p) = s.mem p := rfl

theorem load_head (s : State) (b i : Nat) : s.load (.head b i) = s.buckets b i := rfl

@[simp] theorem nbkts_mark (s : State) (this : Nat) : (remove_node_mark s this).nbkts = s.nbkts := by
  simp [remove_node_mark]

@[simp] theorem nused_mark (s : State) (this : Nat) : (remove_node_mark s this).nused = s.nused := by
  simp [remove_node_mark]

@[simp] theorem buckets_mark (s : State) (this : Nat) :
    (remove_node_mark s this).buckets = s.buckets := rfl

theorem load_mark_ne (s : State) {this : Nat} {k : Loc} (h : k ≠ .node this) :
    (remove_node_mark s this).load k = s.load k :=
  load_store_ne s _ h

theorem mem_mark_same (s : State) (this : Nat) :
    (remove_node_mark s this).mem this = ⟨(s.mem this).hash, SET_MARK (s.mem this).next⟩ := by
  simp [remove_node_mark, State.store]

@[simp] theorem nbkts_account (s : State) (r : Int) : (account s r).nbkts = s.nbkts := by
  unfold account; split <;> rfl

@[simp] theorem buckets_account (s : State) (r : Int) : (account s r).buckets = s.buckets := by
  unfold account; split <;> rfl

@[simp] theorem mem_account (s : State) (r : Int) : (account s r).mem = s.mem := by
  unfold account; split <;> rfl

@[simp] theorem load_account (s : State) (r : Int) (l : Loc) : (account s r).load l = s.load l := by
  cases l <;> simp [State.load]

theorem account_zero (s : State) : account s 0 = s := by
  simp [account]

/-! ## Chains -/

theorem IsChain_transport {s t : State} {c : List (Nat × Nat)} :
    ∀ {l k : Loc}, t.load k = s.load l → (∀ p ∈ c, t.mem p.1 = s.mem p.1) →
      IsChain s l c → IsChain t k c := by
  induction c with
  | nil => intro l k h0 _ h; simpa [IsChain, h0] using h
  | cons p c ih =>
    obtain ⟨e, h⟩ := p
    intro l k h0 hc hs
    obtain ⟨h1, h2, h3, h4⟩ := hs
    refine ⟨h1, h2, h0.trans h3, ih ?_ ?_ h4⟩
    · exact hc (e, h) (List.mem_cons_self _ _)
    · intro p hp
      exact hc p (List.mem_cons_of_mem _ hp)

theorem IsChain_congr {s t : State} {c : List (Nat × Nat)} {l : Loc}
    (h0 : t.load l = s.load l) (hc : ∀ p ∈ c, t.mem p.1 = s.mem p.1) (h : IsChain s l c) :
    IsChain t l c :=
  IsChain_transport h0 hc h

theorem IsChain_unique {s : State} {c : List (Nat × Nat)} :
    ∀ {l : Loc} {d : List (Nat × Nat)}, IsChain s l c → IsChain s l d → c = d := by
  induction c with
  | nil =>
    intro l d h1 h2
    cases d with
    | nil => rfl
    | cons q d =>
      obtain ⟨e, h⟩ := q
      obtain ⟨h3, _, h5, _⟩ := h2
      rw [show s.load l = ⟨0, 0⟩ from h1] at h5
      injection h5 with _ h6
      exact absurd h6.symm h3
  | cons p c ih =>
    obtain ⟨e, h⟩ := p
    intro l d h1 h2
    obtain ⟨h3, _, h5, h6⟩ := h1
    cases d with
    | nil =>
      rw [show s.load l = ⟨0, 0⟩ from h2] at h5
      injection h5 with _ h7
      exact absurd h7.symm h3
    | cons q d =>
      obtain ⟨e2, g⟩ := q
      obtain ⟨_, _, h9, h10⟩ := h2
      rw [h5] at h9
      injection h9 with h11 h12
      subst h11 h12
      rw [ih h6 h10]

theorem IsChain_next_even {s : State} {l : Loc} {c : List (Nat × Nat)} (h : IsChain s l c) :
    (s.load l).next % 2 = 0 := by
  cases c with
  | nil => rw [show s.load l = ⟨0, 0⟩ from h]; rfl
  | cons p c =>
    obtain ⟨e, g⟩ := p
    obtain ⟨_, h2, h3, _⟩ := h
    rw [h3]; exact h2

theorem IsChain_next_zero_iff {s : State} {l : Loc} {c : List (Nat × Nat)} (h : IsChain s l c) :
    (s.load l).next = 0 ↔ c = [] := by
  cases c with
  | nil => rw [show s.load l = ⟨0, 0⟩ from h]; simp
  | cons p c =>
    obtain ⟨e, g⟩ := p
    obtain ⟨h1, _, h3, _⟩ := h
    rw [h3]; simp [h1]

theorem IsChain_mem_ne_zero {s : State} {c : List (Nat × Nat)} :
    ∀ {l : Loc}, IsChain s l c → ∀ p ∈ c, p.1 ≠ 0 ∧ p.1 % 2 = 0 := by
  induction c with
  | nil => intro l _ p hp; cases hp
  | cons q c ih =>
    obtain ⟨e, g⟩ := q
    intro l h p hp
    obtain ⟨h1, h2, _, h4⟩ := h
    rcases List.mem_cons.mp hp with rfl | hp
    · exact ⟨h1, h2⟩
    · exact ih h4 p hp

theorem PtrReach_of_IsChain {s : State} {c : List (Nat × Nat)} :
    ∀ {l : Loc}, IsChain s l c → ∀ e, PtrReach s l e ↔ e ∈ c.map Prod.fst := by
  induction c with
  | nil =>
    intro l h e
    have h0 : REM_MARK (s.load l).next = 0 := by
      rw [show s.load l = ⟨0, 0⟩ from h]; rfl
    constructor
    · intro hr
      cases hr with
      | next _ hn => exact absurd h0 hn
      | step _ _ hn _ => exact absurd h0 hn
    · intro hm; cases hm
  | cons q c ih =>
    obtain ⟨e1, g⟩ := q
    intro l h e
    obtain ⟨h1, h2, h3, h4⟩ := h
    have h0 : REM_MARK (s.load l).next = e1 := by
      rw [h3]; exact REM_MARK_even h2
    constructor
    · intro hr
      cases hr with
      | next _ hn => rw [h0]; simp
      | step _ _ hn hr2 =>
        rw [h0] at hr2
        have := (ih h4 e).mp hr2
        simp only [List.map_cons, List.mem_cons]
        exact Or.inr this
    · intro hm
      simp only [List.map_cons, List.mem_cons] at hm
      rcases hm with rfl | hm
      · have := PtrReach.next (s := s) l (by rw [h0]; exact h1)
        rwa [h0] at this
      · have hr := (ih h4 e).mpr hm
        exact PtrReach.step l e (by rw [h0]; exact h1) (by rw [h0]; exact hr)

/-! ## Walking a chain -/

theorem lastLoc_cons_mem (c : List (Nat × Nat)) :
    ∀ (l : Loc) (p : Nat × Nat), ∃ q ∈ p :: c, lastLoc l (p :: c) = .node q.1 := by
  induction c with
  | nil => intro l p; exact ⟨p, List.mem_cons_self _ _, rfl⟩
  | cons r c ih =>
    intro l p
    obtain ⟨q, hq, hl⟩ := ih (.node p.1) r
    exact ⟨q, List.mem_cons_of_mem _ hq, hl⟩

theorem lastLoc_ne {l k : Loc} {c : List (Nat × Nat)} (hk : k ≠ l)
    (hc : ∀ p ∈ c, Loc.node p.1 ≠ k) : lastLoc l c ≠ k := by
  cases c with
  | nil => exact fun h => hk h.symm
  | cons p c =>
    obtain ⟨q, hq, hl⟩ := lastLoc_cons_mem c l p
    rw [hl]
    exact hc q hq

theorem insert_node_empty {s : State} {prnt : Loc} {he : Nat} (hash : Nat)
    (hm : s.mem he = ⟨0, 0⟩) (hp : s.load prnt = ⟨0, 0⟩) :
    insert_node s prnt he hash = .done (s.store prnt ⟨hash, he⟩, 0) := by
  simp [insert_node, hm, hp]

theorem list_insert_chain (org : Loc) (he hash : Nat) {s : State} (hm : s.mem he = ⟨0, 0⟩)
    (c : List (Nat × Nat)) :
    ∀ (l : Loc) (fuel : Nat) (removed : Int), IsChain s l c → he ∉ c.map Prod.fst →
      list_insert org he hash fuel s l removed =
        if c.length < fuel then .done (s.store (lastLoc l c) ⟨hash, he⟩, removed) else .nofuel := by
  induction c with
  | nil =>
    intro l fuel removed h _
    cases fuel with
    | zero => rfl
    | succ fuel =>
      have h0 : s.load l = ⟨0, 0⟩ := h
      simp [list_insert, hp_acquire, h0, REM_MARK_eq, insert_node_empty hash hm h0, lastLoc]
  | cons p c ih =>
    obtain ⟨e1, h1⟩ := p
    intro l fuel removed h hn
    cases fuel with
    | zero => rfl
    | succ fuel =>
      obtain ⟨g1, g2, g3, g4⟩ := h
      have hne : e1 ≠ he := by
        intro h; apply hn; simp [h]
      have hmk : HAS_MARK (s.mem e1).next = false := HAS_MARK_even (IsChain_next_even g4)
      have hn2 : he ∉ c.map Prod.fst := by
        intro h; apply hn; simp only [List.map_cons, List.mem_cons]; exact Or.inr h
      simp only [list_insert, hp_acquire, g3, REM_MARK_even g2, g1, hne, hmk, if_false, lastLoc,
        List.length_cons, Nat.add_lt_add_iff_right]
      exact ih (.node e1) fuel removed g4 hn2

theorem IsChain_append {s : State} {he : Nat} (hash : Nat) (hm : s.mem he = ⟨0, 0⟩)
    (he0 : he ≠ 0) (hev : he % 2 = 0) (c : List (Nat × Nat)) :
    ∀ l : Loc, IsChain s l c → he ∉ c.map Prod.fst → (c.map Prod.fst).Nodup →
      l ≠ .node he → (∀ p ∈ c, Loc.node p.1 ≠ l) →
      IsChain (s.store (lastLoc l c) ⟨hash, he⟩) l (c ++ [(he, hash)]) := by
  induction c with
  | nil =>
    intro l h _ _ hl _
    refine ⟨he0, hev, by simp [lastLoc], ?_⟩
    show (s.store (lastLoc l []) ⟨hash, he⟩).load (.node he) = ⟨0, 0⟩
    rw [lastLoc, load_store_ne s _ (Ne.symm hl)]
    exact hm
  | cons p c ih =>
    obtain ⟨e1, h1⟩ := p
    intro l h hn hnd hl hc
    obtain ⟨g1, g2, g3, g4⟩ := h
    have hnd2 : e1 ∉ c.map Prod.fst ∧ (c.map Prod.fst).Nodup := List.nodup_cons.mp hnd
    have hne : e1 ≠ he := by
      intro h; apply hn; simp [h]
    have hn2 : he ∉ c.map Prod.fst := by
      intro h; apply hn; simp only [List.map_cons, List.mem_cons]; exact Or.inr h
    have hlast : lastLoc (.node e1) c ≠ l := by
      apply lastLoc_ne
      · exact (hc (e1, h1) (List.mem_cons_self _ _)).symm
      · intro p hp; exact hc p (List.mem_cons_of_mem _ hp)
    refine ⟨g1, g2, ?_, ?_⟩
    · rw [lastLoc, load_store_ne s _ hlast.symm]; exact g3
    · refine ih (.node e1) g4 hn2 hnd2.2 (by simpa using hne) ?_
      intro p hp hcontra
      apply hnd2.1
      have : p.1 = e1 := by simpa using hcontra
      rw [← this]
      exact List.mem_map_of_mem _ hp

theorem remove_node_linked {s : State} {prnt : Loc} {this hash : Nat} (removed : Int)
    (h0 : this ≠ 0) (hev : this % 2 = 0) (hp : s.load prnt = ⟨hash, this⟩)
    (hne : prnt ≠ .node this) (hn : (s.mem this).next % 2 = 0) :
    remove_node s prnt this hash removed =
      .done ((remove_node_mark s this).store prnt (s.mem this), true, removed + 1) := by
  have h1 : (remove_node_mark s this).load prnt = ⟨hash, this⟩ := by
    rw [load_mark_ne s hne]; exact hp
  simp [remove_node, REM_MARK_even hev, h0, h1, mem_mark_same, REM_SET_MARK_even hn]

theorem list_remove_absent (org : Loc) (he hash : Nat) {s : State} (c : List (Nat × Nat)) :
    ∀ (l : Loc) (fuel : Nat) (removed : Int), IsChain s l c → he ∉ c.map Prod.fst →
      list_remove org he hash fuel s l removed =
        if c.length < fuel then .done (s, false, removed) else .nofuel := by
  induction c with
  | nil =>
    intro l fuel removed h _
    cases fuel with
    | zero => rfl
    | succ fuel =>
      have h0 : s.load l = ⟨0, 0⟩ := h
      simp [list_remove, hp_acquire, h0, REM_MARK_eq]
  | cons p c ih =>
    obtain ⟨e1, h1⟩ := p
    intro l fuel removed h hn
    cases fuel with
    | zero => rfl
    | succ fuel =>
      obtain ⟨g1, g2, g3, g4⟩ := h
      have hne : e1 ≠ he := by
        intro h; apply hn; simp [h]
      have hmk : HAS_MARK (s.mem e1).next = false := HAS_MARK_even (IsChain_next_even g4)
      have hn2 : he ∉ c.map Prod.fst := by
        intro h; apply hn; simp only [List.map_cons, List.mem_cons]; exact Or.inr h
      simp only [list_remove, hp_acquire, g3, REM_MARK_even g2, g1, hne, hmk, if_false,
        List.length_cons, Nat.add_lt_add_iff_right]
      exact ih (.node e1) fuel removed g4 hn2

theorem list_remove_present (org : Loc) (he hash : Nat) {s : State}
    (pre post : List (Nat × Nat)) :
    ∀ (l : Loc) (fuel : Nat) (removed : Int), IsChain s l (pre ++ (he, hash) :: post) →
      he ∉ pre.map Prod.fst → l ≠ .node he →
      list_remove org he hash fuel s l removed =
        if pre.length < fuel then
          .done ((remove_node_mark s he).store (lastLoc l pre) (s.mem he), true, removed + 1)
        else .nofuel := by
  induction pre with
  | nil =>
    intro l fuel removed h _ hl
    cases fuel with
    | zero => rfl
    | succ fuel =>
      obtain ⟨g1, g2, g3, g4⟩ := h
      have hn : (s.mem he).next % 2 = 0 := IsChain_next_even g4
      simp [list_remove, hp_acquire, g3, REM_MARK_even g2, g1, remove_node_linked removed g1 g2 g3 hl hn,
        lastLoc]
  | cons p pre ih =>
    obtain ⟨e1, h1⟩ := p
    intro l fuel removed h hn hl
    cases fuel with
    | zero => rfl
    | succ fuel =>
      obtain ⟨g1, g2, g3, g4⟩ := h
      have hne : e1 ≠ he := by
        intro h; apply hn; simp [h]
      have hmk : HAS_MARK (s.mem e1).next = false := HAS_MARK_even (IsChain_next_even g4)
      have hn2 : he ∉ pre.map Prod.fst := by
        intro h; apply hn; simp only [List.map_cons, List.mem_cons]; exact Or.inr h
      simp only [list_remove, hp_acquire, g3, REM_MARK_even g2, g1, hne, hmk, if_false, lastLoc,
        List.length_cons, Nat.add_lt_add_iff_right]
      exact ih (.node e1) fuel removed g4 hn2 (by simpa using hne)

theorem IsChain_unlink {s : State} {he hash : Nat} (pre post : List (Nat × Nat)) :
    ∀ l : Loc, IsChain s l (pre ++ (he, hash) :: post) →
      ((pre ++ (he, hash) :: post).map Prod.fst).Nodup →
      (∀ p ∈ pre ++ (he, hash) :: post, Loc.node p.1 ≠ l) →
      IsChain ((remove_node_mark s he).store (lastLoc l pre) (s.mem he)) l (pre ++ post) := by
  induction pre with
  | nil =>
    intro l h hnd hc
    obtain ⟨g1, g2, g3, g4⟩ := h
    have hnd2 : he ∉ post.map Prod.fst ∧ (post.map Prod.fst).Nodup := List.nodup_cons.mp hnd
    have hl : Loc.node he ≠ l := hc (he, hash) (by simp)
    refine IsChain_transport (l := .node he) ?_ ?_ g4
    · simp [lastLoc, load_node]
    · intro p hp
      have hpe : p.1 ≠ he := by
        intro h; apply hnd2.1; rw [← h]; exact List.mem_map_of_mem _ hp
      have hpl : Loc.node p.1 ≠ l := hc p (List.mem_cons_of_mem _ hp)
      have h1 := load_store_ne (remove_node_mark s he) (s.mem he) (l := lastLoc l []) hpl
      have h2 := @load_mark_ne s he (.node p.1) (by simpa using hpe)
      exact h1.trans h2
  | cons p pre ih =>
    obtain ⟨e1, h1⟩ := p
    intro l h hnd hc
    obtain ⟨g1, g2, g3, g4⟩ := h
    have hnd2 : e1 ∉ (pre ++ (he, hash) :: post).map Prod.fst ∧
        ((pre ++ (he, hash) :: post).map Prod.fst).Nodup := List.nodup_cons.mp hnd
    have hne : e1 ≠ he := by
      intro h; apply hnd2.1; simp [h]
    have hl1 : Loc.node e1 ≠ l := hc (e1, h1) (by simp)
    have hl : Loc.node he ≠ l := hc (he, hash) (by simp)
    have hlast : lastLoc (.node e1) pre ≠ l := by
      apply lastLoc_ne hl1.symm
      intro p hp; exact hc p (by simp [hp])
    refine ⟨g1, g2, ?_, ?_⟩
    · rw [lastLoc, load_store_ne _ _ hlast.symm, load_mark_ne s hl.symm]; exact g3
    · refine ih (.node e1) g4 hnd2.2 ?_
      intro p hp hcontra
      apply hnd2.1
      have : p.1 = e1 := by simpa using hcontra
      rw [← this]
      exact List.mem_map_of_mem _ hp

theorem list_lookup_miss {s : State} {cf : Nat → Nat → Int} {key : Nat} (c : List (Nat × Nat)) :
    ∀ (l : Loc) (fuel : Nat), IsChain s l c → (∀ p ∈ c, cf p.1 key ≠ 0) →
      list_lookup s cf key fuel l = if c.length < fuel then .done 0 else .nofuel := by
  induction c with
  | nil =>
    intro l fuel h _
    cases fuel with
    | zero => rfl
    | succ fuel =>
      have h0 : s.load l = ⟨0, 0⟩ := h
      simp [list_lookup, hp_acquire, h0, REM_MARK_eq]
  | cons p c ih =>
    obtain ⟨e1, h1⟩ := p
    intro l fuel h hn
    cases fuel with
    | zero => rfl
    | succ fuel =>
      obtain ⟨g1, g2, g3, g4⟩ := h
      have hcf : cf e1 key ≠ 0 := hn (e1, h1) (List.mem_cons_self _ _)
      simp only [list_lookup, hp_acquire, g3, REM_MARK_even g2, g1, hcf, if_false,
        List.length_cons, Nat.add_lt_add_iff_right]
      exact ih (.node e1) fuel g4 (fun p hp => hn p (List.mem_cons_of_mem _ hp))

theorem list_lookup_hit {s : State} {cf : Nat → Nat → Int} {key e h : Nat}
    (pre post : List (Nat × Nat)) :
    ∀ (l : Loc) (fuel : Nat), IsChain s l (pre ++ (e, h) :: post) →
      (∀ p ∈ pre, cf p.1 key ≠ 0) → cf e key = 0 →
      list_lookup s cf key fuel l = if pre.length < fuel then .done e else .nofuel := by
  induction pre with
  | nil =>
    intro l fuel hc _ hcf
    cases fuel with
    | zero => rfl
    | succ fuel =>
      obtain ⟨g1, g2, g3, g4⟩ := hc
      simp [list_lookup, hp_acquire, g3, REM_MARK_even g2, g1, hcf]
  | cons p pre ih =>
    obtain ⟨e1, h1⟩ := p
    intro l fuel hc hn hcf
    cases fuel with
    | zero => rfl
    | succ fuel =>
      obtain ⟨g1, g2, g3, g4⟩ := hc
      have hcf1 : cf e1 key ≠ 0 := hn (e1, h1) (List.mem_cons_self _ _)
      simp only [list_lookup, hp_acquire, g3, REM_MARK_even g2, g1, hcf1, if_false,
        List.length_cons, Nat.add_lt_add_iff_right]
      exact ih (.node e1) fuel g4 (fun p hp => hn p (List.mem_cons_of_mem _ hp)) hcf

theorem list_lookup_sound {s : State} {cf : Nat → Nat → Int} {key : Nat} (c : List (Nat × Nat)) :
    ∀ (l : Loc) (fuel r : Nat), IsChain s l c → list_lookup s cf key fuel l = .done r →
      r ≠ 0 → r ∈ c.map Prod.fst ∧ cf r key = 0 := by
  induction c with
  | nil =>
    intro l fuel r h hr hr0
    cases fuel with
    | zero => cases hr
    | succ fuel =>
      have h0 : s.load l = ⟨0, 0⟩ := h
      simp [list_lookup, hp_acquire, h0, REM_MARK_eq] at hr
      exact absurd hr.symm hr0
  | cons p c ih =>
    obtain ⟨e1, h1⟩ := p
    intro l fuel r h hr hr0
    cases fuel with
    | zero => cases hr
    | succ fuel =>
      obtain ⟨g1, g2, g3, g4⟩ := h
      simp only [list_lookup, hp_acquire, g3, REM_MARK_even g2, g1, if_false] at hr
      by_cases hcf : cf e1 key = 0
      · simp only [hcf, if_true] at hr
        injection hr with hr
        subst hr
        exact ⟨by simp, hcf⟩
      · simp only [hcf, if_false] at hr
        obtain ⟨h5, h6⟩ := ih (.node e1) fuel r g4 hr hr0
        exact ⟨by simp only [List.map_cons, List.mem_cons]; exact Or.inr h5, h6⟩

/-! ## The representation invariant -/

theorem Inv_alloc (nentries : Nat) (mem : Nat → p64_hashentry) :
    Inv (p64_hashtable_alloc nentries mem) [] (fun _ _ => []) where
  chain := fun _ _ => rfl
  range := fun _ _ h => absurd rfl h
  sound := fun _ _ _ h => by cases h
  complete := fun _ h => by cases h
  bkt := fun _ _ _ h => by cases h
  slot := fun _ _ _ h => by cases h
  nodupL := List.nodup_nil
  nodup := fun _ _ => List.nodup_nil
  disj := fun _ _ _ _ _ h => by cases h

theorem Inv.fst_mem_L {s : State} {L : List (Nat × Nat)} {c : Nat → Nat → List (Nat × Nat)}
    (hI : Inv s L c) {b i e : Nat} (h : e ∈ (c b i).map Prod.fst) : e ∈ L.map Prod.fst := by
  obtain ⟨p, hp, rfl⟩ := List.mem_map.mp h
  exact List.mem_map_of_mem _ (hI.sound b i p hp)

theorem Inv.node_ne_head {s : State} {L : List (Nat × Nat)} {c : Nat → Nat → List (Nat × Nat)}
    (_hI : Inv s L c) (b i b1 i1 : Nat) : ∀ p ∈ c b i, Loc.node p.1 ≠ Loc.head b1 i1 :=
  fun _ _ h => Loc.noConfusion h

theorem mem_store_lastLoc (s : State) (v : p64_hashentry) {x : Nat} {l : Loc}
    {c : List (Nat × Nat)} (hl : l ≠ .node x) (hc : ∀ p ∈ c, p.1 ≠ x) :
    (s.store (lastLoc l c) v).mem x = s.mem x := by
  have h : lastLoc l c ≠ .node x := by
    apply lastLoc_ne hl.symm
    intro p hp h
    exact hc p hp (by simpa using h)
  exact load_store_ne s v (k := .node x) h.symm

theorem tail_append_singleton_mem {α : Type} {c : List α} {x p : α}
    (h : p ∈ (c ++ [x]).tail) : p ∈ c.tail ∨ (c ≠ [] ∧ p = x) := by
  cases c with
  | nil => simp at h
  | cons a c =>
    simp only [List.cons_append, List.tail_cons, List.mem_append, List.mem_singleton] at h
    rcases h with h | h
    · exact Or.inl h
    · exact Or.inr ⟨by simp, h⟩

/-- Linking `he` behind the last entry of the chain off head slot `j` of its
bucket keeps the invariant, when the chain is empty or `j = hash mod BKT_SIZE`. -/
theorem Inv_insert_at {s : State} {L : List (Nat × Nat)} {c : Nat → Nat → List (Nat × Nat)}
    (hI : Inv s L c) {he : Nat} (hash : Nat) {j : Nat} (h0 : he ≠ 0) (hev : he % 2 = 0)
    (hn : he ∉ L.map Prod.fst) (hb : s.nbkts ≠ 0) (hj : j < BKT_SIZE)
    (hslot : c (bucketIndex s hash) j = [] ∨ j = hash % BKT_SIZE) :
    Inv (account ((s.store (.node he) ⟨0, 0⟩).store
          (lastLoc (.head (bucketIndex s hash) j) (c (bucketIndex s hash) j)) ⟨hash, he⟩) (-1))
      ((he, hash) :: L)
      (fun b i => if b = bucketIndex s hash ∧ i = j
        then c (bucketIndex s hash) j ++ [(he, hash)] else c b i) := by
  set b0 := bucketIndex s hash with hb0
  set s0 := s.store (.node he) ⟨0, 0⟩ with hs0
  have hnc : ∀ b i, he ∉ (c b i).map Prod.fst := fun b i h => hn (hI.fst_mem_L h)
  have hm0 : s0.mem he = ⟨0, 0⟩ := load_store_same s (.node he) _
  have hch0 : ∀ b i, IsChain s0 (.head b i) (c b i) := by
    intro b i
    refine IsChain_congr (load_store_ne s _ (by simp)) ?_ (hI.chain b i)
    intro p hp
    refine load_store_ne s _ (k := .node p.1) ?_
    intro h
    apply hnc b i
    have : p.1 = he := by simpa using h
    rw [← this]
    exact List.mem_map_of_mem _ hp
  constructor
  · intro b i
    by_cases hbi : b = b0 ∧ i = j
    · obtain ⟨rfl, rfl⟩ := hbi
      simp only [and_self, if_true]
      have := IsChain_append hash hm0 h0 hev (c b0 i) (.head b0 i) (hch0 b0 i) (hnc b0 i)
        (hI.nodup b0 i) (by simp) (hI.node_ne_head b0 i b0 i)
      refine IsChain_congr ?_ ?_ this
      · simp
      · intro p _; simp
    · simp only [hbi, if_false]
      refine IsChain_congr ?_ ?_ (hch0 b i)
      · rw [load_account]
        refine load_store_ne s0 _ ?_
        refine (lastLoc_ne ?_ (hI.node_ne_head b0 j b i)).symm
        intro h
        apply hbi
        injection h with h1 h2
        exact ⟨h1, h2⟩
      · intro p hp
        rw [mem_account]
        refine mem_store_lastLoc s0 _ (by simp) ?_
        intro q hq hqp
        have h1 := hI.disj b0 j b i q.1 (List.mem_map_of_mem _ hq)
          (by rw [hqp]; exact List.mem_map_of_mem _ hp)
        exact hbi ⟨h1.1.symm, h1.2.symm⟩
  · intro b i hne
    by_cases hbi : b = b0 ∧ i = j
    · obtain ⟨rfl, rfl⟩ := hbi
      simp only [nbkts_account, nbkts_store]
      exact ⟨Nat.mod_lt _ (Nat.pos_of_ne_zero hb), hj⟩
    · simp only [hbi, if_false] at hne
      simpa using hI.range b i hne
  · intro b i p hp
    by_cases hbi : b = b0 ∧ i = j
    · simp only [hbi, and_self, if_true, List.mem_append, List.mem_singleton] at hp
      rcases hp with hp | hp
      · exact List.mem_cons_of_mem _ (hI.sound b0 j p hp)
      · rw [hp]; exact List.mem_cons_self _ _
    · simp only [hbi, if_false] at hp
      exact List.mem_cons_of_mem _ (hI.sound b i p hp)
  · intro p hp
    rcases List.mem_cons.mp hp with rfl | hp
    · exact ⟨b0, j, by simp⟩
    · obtain ⟨b, i, hbi⟩ := hI.complete p hp
      refine ⟨b, i, ?_⟩
      by_cases h : b = b0 ∧ i = j
      · obtain ⟨rfl, rfl⟩ := h
        simp [hbi]
      · simp only [h, if_false]; exact hbi
  · intro b i p hp
    have hbk : ∀ h, bucketIndex (account ((s0.store
        (lastLoc (.head b0 j) (c b0 j)) ⟨hash, he⟩)) (-1)) h = bucketIndex s h := by
      intro h; simp [bucketIndex, hs0]
    rw [hbk]
    by_cases hbi : b = b0 ∧ i = j
    · simp only [hbi, and_self, if_true, List.mem_append, List.mem_singleton] at hp
      rcases hp with hp | hp
      · rw [hbi.1]; exact hI.bkt b0 j p hp
      · rw [hp, hbi.1]
    · simp only [hbi, if_false] at hp
      exact hI.bkt b i p hp
  · intro b i p hp
    by_cases hbi : b = b0 ∧ i = j
    · simp only [hbi, and_self, if_true] at hp
      rcases tail_append_singleton_mem hp with hp | ⟨hne, hp⟩
      · rw [hbi.2]; exact hI.slot b0 j p hp
      · rcases hslot with h | h
        · exact absurd h hne
        · rw [hp, hbi.2]; exact h.symm
    · simp only [hbi, if_false] at hp
      exact hI.slot b i p hp
  · show (he :: L.map Prod.fst).Nodup
    exact List.nodup_cons.mpr ⟨hn, hI.nodupL⟩
  · intro b i
    by_cases hbi : b = b0 ∧ i = j
    · simp only [hbi, and_self, if_true, List.map_append, List.map_cons, List.map_nil]
      refine List.Nodup.append (hI.nodup b0 j) (List.nodup_singleton _) ?_
      intro x hx hx1
      rw [List.mem_singleton] at hx1
      exact hnc b0 j (hx1 ▸ hx)
    · simp only [hbi, if_false]
      exact hI.nodup b i
  · intro b i b1 i1 e h1 h2
    by_cases hbi : b = b0 ∧ i = j <;> by_cases hbi1 : b1 = b0 ∧ i1 = j
    · exact ⟨hbi.1.trans hbi1.1.symm, hbi.2.trans hbi1.2.symm⟩
    · simp only [hbi, hbi1, and_self, if_true, if_false, List.map_append, List.map_cons,
        List.map_nil, List.mem_append, List.mem_singleton] at h1 h2
      rcases h1 with h1 | h1
      · have := hI.disj b0 j b1 i1 e h1 h2
        exact absurd ⟨this.1.symm, this.2.symm⟩ hbi1
      · exact absurd (h1 ▸ h2) (hnc b1 i1)
    · simp only [hbi, hbi1, and_self, if_true, if_false, List.map_append, List.map_cons,
        List.map_nil, List.mem_append, List.mem_singleton] at h1 h2
      rcases h2 with h2 | h2
      · exact absurd (hI.disj b i b0 j e h1 h2) hbi
      · exact absurd (h2 ▸ h1) (hnc b i)
    · simp only [hbi, hbi1, if_false] at h1 h2
      exact hI.disj b i b1 i1 e h1 h2

/-! ## Insert -/

theorem Inv.chain_reset {s : State} {L : List (Nat × Nat)} {c : Nat → Nat → List (Nat × Nat)}
    (hI : Inv s L c) {he : Nat} (hn : he ∉ L.map Prod.fst) (b i : Nat) :
    IsChain (s.store (.node he) ⟨0, 0⟩) (.head b i) (c b i) := by
  refine IsChain_congr (load_store_ne s _ (by simp)) ?_ (hI.chain b i)
  intro p hp
  refine load_store_ne s _ (k := .node p.1) ?_
  intro h
  apply hn
  have : p.1 = he := by simpa using h
  rw [← this]
  exact List.mem_map_of_mem _ (hI.sound b i p hp)

theorem bucket_insert_loop_cons {s : State} {b he : Nat} (hash : Nat) {i : Nat} (mask : List Nat)
    (hm : s.mem he = ⟨0, 0⟩) (hi : s.buckets b i = ⟨0, 0⟩) :
    bucket_insert_loop b he hash (i :: mask) s = .done (s.store (.head b i) ⟨hash, he⟩, true) := by
  simp [bucket_insert_loop, @insert_node_empty s (.head b i) he hash hm hi]

/-- State after `p64_hashtable_insert` linked `he` at the end of the chain
`c` off head slot `j` of the bucket of `hash`. -/
theorem insert_spec {s : State} {L : List (Nat × Nat)} {c : Nat → Nat → List (Nat × Nat)}
    (hI : Inv s L c) {he : Nat} (hash : Nat) (h0 : he ≠ 0)
    (hn : he ∉ L.map Prod.fst) (hb : s.nbkts ≠ 0) :
    ∃ j N, j < BKT_SIZE ∧
      ((c (bucketIndex s hash) j = [] ∧ N = 0) ∨
        (j = hash % BKT_SIZE ∧ N = (c (bucketIndex s hash) j).length + 1 ∧
          ∀ i, i < BKT_SIZE → c (bucketIndex s hash) i ≠ [])) ∧
      ∀ fuel, p64_hashtable_insert fuel s he hash =
        if N ≤ fuel then
          .done (account ((s.store (.node he) ⟨0, 0⟩).store
            (lastLoc (.head (bucketIndex s hash) j) (c (bucketIndex s hash) j)) ⟨hash, he⟩) (-1))
        else .nofuel := by
  have hch0 := hI.chain_reset hn
  have hm0 : (s.store (.node he) ⟨0, 0⟩).mem he = ⟨0, 0⟩ := load_store_same s (.node he) _
  cases hmask : (List.range BKT_SIZE).filter
      (fun i => ((s.store (.node he) ⟨0, 0⟩).buckets (bucketIndex s hash) i).next = 0) with
  | nil =>
    have hfull : ∀ i, i < BKT_SIZE → c (bucketIndex s hash) i ≠ [] := by
      intro i hi hci
      have h1 : i ∈ (List.range BKT_SIZE).filter
          (fun i => ((s.store (.node he) ⟨0, 0⟩).buckets (bucketIndex s hash) i).next = 0) := by
        rw [List.mem_filter]
        refine ⟨List.mem_range.mpr hi, ?_⟩
        have := (IsChain_next_zero_iff (hch0 (bucketIndex s hash) i)).mpr hci
        simpa [load_head] using this
      rw [hmask] at h1
      cases h1
    refine ⟨hash % BKT_SIZE, _, Nat.mod_lt _ (by decide), Or.inr ⟨rfl, rfl, hfull⟩, ?_⟩
    intro fuel
    have h1 : bucket_insert (s.store (.node he) ⟨0, 0⟩) (bucketIndex s hash) he hash =
        .done (s.store (.node he) ⟨0, 0⟩, false) := by
      unfold bucket_insert; rw [hmask]; rfl
    have h2 := list_insert_chain (.head (bucketIndex s hash) (hash % BKT_SIZE)) he hash hm0
      (c (bucketIndex s hash) (hash % BKT_SIZE)) (.head (bucketIndex s hash) (hash % BKT_SIZE))
      fuel (-1) (hch0 _ _) (fun h => hn (hI.fst_mem_L h))
    unfold p64_hashtable_insert
    rw [if_neg hb, if_neg h0]
    simp only [bucketIndex] at h1 h2 ⊢
    simp only [h1, h2]
    by_cases hf : (c (hash / BKT_SIZE % s.nbkts) (hash % BKT_SIZE)).length < fuel
    · rw [if_pos hf, if_pos (by omega)]
    · rw [if_neg hf, if_neg (by omega)]
  | cons i mask =>
    have hi : i ∈ (List.range BKT_SIZE).filter
        (fun i => ((s.store (.node he) ⟨0, 0⟩).buckets (bucketIndex s hash) i).next = 0) := by
      rw [hmask]; exact List.mem_cons_self _ _
    rw [List.mem_filter] at hi
    have hci : c (bucketIndex s hash) i = [] := by
      refine (IsChain_next_zero_iff (hch0 (bucketIndex s hash) i)).mp ?_
      simpa [load_head] using hi.2
    have hbi : (s.store (.node he) ⟨0, 0⟩).buckets (bucketIndex s hash) i = ⟨0, 0⟩ := by
      have := hch0 (bucketIndex s hash) i
      rw [hci] at this
      exact this
    refine ⟨i, 0, List.mem_range.mp hi.1, Or.inl ⟨hci, rfl⟩, ?_⟩
    intro fuel
    have h1 : bucket_insert (s.store (.node he) ⟨0, 0⟩) (bucketIndex s hash) he hash =
        .done ((s.store (.node he) ⟨0, 0⟩).store (.head (bucketIndex s hash) i) ⟨hash, he⟩,
          true) := by
      unfold bucket_insert; rw [hmask]
      exact bucket_insert_loop_cons hash mask hm0 hbi
    unfold p64_hashtable_insert
    rw [if_neg hb, if_neg h0]
    simp only [bucketIndex] at h1 hci ⊢
    simp only [h1, hci, lastLoc, Nat.zero_le, if_true]

/-- Insert keeps the representation invariant. -/
theorem Inv_insert {s s1 : State} {L : List (Nat × Nat)} {c : Nat → Nat → List (Nat × Nat)}
    (hI : Inv s L c) {fuel he hash : Nat} (h0 : he ≠ 0) (hev : he % 2 = 0)
    (hn : he ∉ L.map Prod.fst) (hr : p64_hashtable_insert fuel s he hash = .done s1) :
    ∃ c1, Inv s1 ((he, hash) :: L) c1 := by
  have hb : s.nbkts ≠ 0 := by
    intro hb
    simp [p64_hashtable_insert, hb] at hr
  obtain ⟨j, N, hj, hcase, hrun⟩ := insert_spec hI hash h0 hn hb
  rw [hrun fuel] at hr
  by_cases hf : N ≤ fuel
  · rw [if_pos hf] at hr
    injection hr with hr
    subst hr
    refine ⟨_, Inv_insert_at hI hash h0 hev hn hb hj ?_⟩
    rcases hcase with h | h
    · exact Or.inl h.1
    · exact Or.inr h.1
  · rw [if_neg hf] at hr
    cases hr

/-! ## Remove -/

theorem filter_ne_self {c : List (Nat × Nat)} {he : Nat} (h : he ∉ c.map Prod.fst) :
    c.filter (fun p => p.1 != he) = c := by
  rw [List.filter_eq_self]
  intro p hp
  simp only [bne_iff_ne, ne_eq]
  intro hpe
  exact h (hpe ▸ List.mem_map_of_mem _ hp)

theorem filter_ne_split {pre post : List (Nat × Nat)} {he hash : Nat}
    (h : ((pre ++ (he, hash) :: post).map Prod.fst).Nodup) :
    (pre ++ (he, hash) :: post).filter (fun p => p.1 != he) = pre ++ post := by
  rw [List.map_append, List.map_cons] at h
  have h1 := List.nodup_append.mp h
  have h2 := List.nodup_cons.mp h1.2.1
  have hpre : he ∉ pre.map Prod.fst := fun hx => h1.2.2 hx (List.mem_cons_self _ _)
  rw [List.filter_append, List.filter_cons, filter_ne_self hpre, filter_ne_self h2.1]
  simp

theorem split_of_mem_fst {c : List (Nat × Nat)} {he : Nat} (h : he ∈ c.map Prod.fst) :
    ∃ pre hash post, c = pre ++ (he, hash) :: post := by
  obtain ⟨p, hp, rfl⟩ := List.mem_map.mp h
  obtain ⟨pre, post, hc⟩ := List.append_of_mem hp
  exact ⟨pre, p.2, post, hc⟩

theorem tail_filter_mem {α : Type} (q : α → Bool) {c : List α} {p : α}
    (h : p ∈ (c.filter q).tail) : p ∈ c.tail := by
  cases c with
  | nil => simp at h
  | cons a c =>
    rw [List.filter_cons] at h
    split at h
    · exact (List.mem_filter.mp h).1
    · exact (List.mem_filter.mp (List.mem_of_mem_tail h)).1

theorem Inv_filter {s s1 : State} {L : List (Nat × Nat)} {c : Nat → Nat → List (Nat × Nat)}
    (hI : Inv s L c) (he : Nat) (hnb : s1.nbkts = s.nbkts)
    (hch : ∀ b i, IsChain s1 (.head b i) ((c b i).filter (fun p => p.1 != he))) :
    Inv s1 (L.filter (fun p => p.1 != he)) (fun b i => (c b i).filter (fun p => p.1 != he)) where
  chain := hch
  range := by
    intro b i hne
    rw [hnb]
    apply hI.range b i
    intro h
    apply hne
    simp [h]
  sound := by
    intro b i p hp
    rw [List.mem_filter] at hp ⊢
    exact ⟨hI.sound b i p hp.1, hp.2⟩
  complete := by
    intro p hp
    rw [List.mem_filter] at hp
    obtain ⟨b, i, h⟩ := hI.complete p hp.1
    exact ⟨b, i, List.mem_filter.mpr ⟨h, hp.2⟩⟩
  bkt := by
    intro b i p hp
    have := hI.bkt b i p (List.mem_filter.mp hp).1
    simpa [bucketIndex, hnb] using this
  slot := fun b i p hp => hI.slot b i p (tail_filter_mem _ hp)
  nodupL := List.Nodup.sublist ((List.filter_sublist L).map Prod.fst) hI.nodupL
  nodup := fun b i =>
    List.Nodup.sublist ((List.filter_sublist (c b i)).map Prod.fst) (hI.nodup b i)
  disj := by
    intro b i b1 i1 e h1 h2
    have g1 := ((List.filter_sublist (c b i)).map Prod.fst).subset h1
    have g2 := ((List.filter_sublist (c b1 i1)).map Prod.fst).subset h2
    exact hI.disj b i b1 i1 e g1 g2

/-- Unlinking `he` from the chain off head slot `j` of bucket `b` keeps the
invariant. -/
theorem Inv_remove_at {s : State} {L : List (Nat × Nat)} {c : Nat → Nat → List (Nat × Nat)}
    (hI : Inv s L c) {he hash b j : Nat} {pre post : List (Nat × Nat)}
    (hc : c b j = pre ++ (he, hash) :: post) (removed : Int) :
    Inv (account ((remove_node_mark s he).store (lastLoc (.head b j) pre) (s.mem he)) removed)
      (L.filter (fun p => p.1 != he)) (fun b i => (c b i).filter (fun p => p.1 != he)) := by
  have hnd := hI.nodup b j
  rw [hc] at hnd
  have hmem : he ∈ (c b j).map Prod.fst := by rw [hc]; simp
  refine Inv_filter hI he (by simp) ?_
  intro b1 i1
  by_cases hbi : b1 = b ∧ i1 = j
  · obtain ⟨rfl, rfl⟩ := hbi
    rw [hc, filter_ne_split hnd]
    have hch := hI.chain b1 i1
    rw [hc] at hch
    refine IsChain_congr (by simp) (fun p _ => by simp) (IsChain_unlink pre post _ hch hnd ?_)
    intro p _ h
    exact Loc.noConfusion h
  · have hab : he ∉ (c b1 i1).map Prod.fst := by
      intro h
      have := hI.disj b1 i1 b j he h hmem
      exact hbi this
    rw [filter_ne_self hab]
    refine IsChain_congr ?_ ?_ (hI.chain b1 i1)
    · rw [load_account, load_store_ne, load_mark_ne s (by simp)]
      refine (lastLoc_ne ?_ ?_).symm
      · intro h
        injection h with h1 h2
        exact hbi ⟨h1, h2⟩
      · intro p _ h
        exact Loc.noConfusion h
    · intro p hp
      have hpe : p.1 ≠ he := fun h => hab (h ▸ List.mem_map_of_mem _ hp)
      rw [mem_account, mem_store_lastLoc _ _ (by simp)]
      · exact load_mark_ne s (k := .node p.1) (by simpa using hpe)
      · intro q hq hqp
        have hq1 : q.1 ∈ (c b j).map Prod.fst := by
          rw [hc]; exact List.mem_map_of_mem _ (List.mem_append_left _ hq)
        have := hI.disj b1 i1 b j q.1 (hqp ▸ List.mem_map_of_mem _ hp) hq1
        exact hbi this

/-- What `p64_hashtable_remove` does on a state that satisfies the invariant,
with the number of loop iterations it needs: either `he` is not present, the
call returns false and leaves the state as it is, or `he` is unlinked from its
chain and the call returns true; the fuel needed is at most the length of the
chain off head slot `hash mod BKT_SIZE` plus one. -/
theorem remove_spec_bound {s : State} {L : List (Nat × Nat)}
    {c : Nat → Nat → List (Nat × Nat)}
    (hI : Inv s L c) {he hash : Nat} (h0 : he ≠ 0) (hh : ∀ h, (he, h) ∈ L → h = hash)
    (hb : s.nbkts ≠ 0) :
    (he ∉ L.map Prod.fst ∧ ∃ N, N ≤ (c (bucketIndex s hash) (hash % BKT_SIZE)).length + 1 ∧
      ∀ fuel, p64_hashtable_remove fuel s he hash =
        if N ≤ fuel then .done (s, false) else .nofuel) ∨
    (he ∈ L.map Prod.fst ∧ ∃ N j pre post,
      N ≤ (c (bucketIndex s hash) (hash % BKT_SIZE)).length + 1 ∧
      c (bucketIndex s hash) j = pre ++ (he, hash) :: post ∧
      ∀ fuel, p64_hashtable_remove fuel s he hash =
        if N ≤ fuel then
          .done (account ((remove_node_mark s he).store
            (lastLoc (.head (bucketIndex s hash) j) pre) (s.mem he)) 1, true)
        else .nofuel) := by
  cases hmask : (List.range BKT_SIZE).filter
      (fun i => (s.buckets (bucketIndex s hash) i).next = he) with
  | cons i mask =>
    right
    have hi : i ∈ (List.range BKT_SIZE).filter
        (fun i => (s.buckets (bucketIndex s hash) i).next = he) := by
      rw [hmask]; exact List.mem_cons_self _ _
    rw [List.mem_filter] at hi
    have hnext : (s.load (.head (bucketIndex s hash) i)).next = he := by
      simpa [load_head] using hi.2
    have hch := hI.chain (bucketIndex s hash) i
    cases hci : c (bucketIndex s hash) i with
    | nil =>
      rw [hci] at hch
      rw [show s.load (.head (bucketIndex s hash) i) = ⟨0, 0⟩ from hch] at hnext
      exact absurd hnext.symm h0
    | cons p post =>
      obtain ⟨e, h⟩ := p
      rw [hci] at hch
      obtain ⟨g1, g2, g3, g4⟩ := hch
      rw [g3] at hnext
      simp only at hnext
      subst hnext
      have hL : (e, h) ∈ L := hI.sound (bucketIndex s hash) i (e, h) (by rw [hci]; simp)
      have hhash := hh h hL
      subst hhash
      refine ⟨List.mem_map_of_mem _ hL, 0, i, [], post, Nat.zero_le _, by simpa using hci, ?_⟩
      intro fuel
      have h1 := remove_node_linked 0 g1 g2 g3 (by simp) (IsChain_next_even g4)
      unfold p64_hashtable_remove
      rw [if_neg hb]
      simp only [bucketIndex] at hmask h1 ⊢
      simp only [bucket_remove, hmask, h1, lastLoc, Nat.zero_le, if_true, zero_add]
  | nil =>
    have hnohead : ∀ i, i < BKT_SIZE → (s.buckets (bucketIndex s hash) i).next ≠ he := by
      intro i hi hnx
      have h1 : i ∈ (List.range BKT_SIZE).filter
          (fun i => (s.buckets (bucketIndex s hash) i).next = he) := by
        rw [List.mem_filter]
        exact ⟨List.mem_range.mpr hi, by simpa using hnx⟩
      rw [hmask] at h1
      cases h1
    have hbr : bucket_remove s (bucketIndex s hash) he hash 0 = .done (s, false, 0) := by
      simp only [bucket_remove, hmask]
    by_cases hmem : he ∈ (c (bucketIndex s hash) (hash % BKT_SIZE)).map Prod.fst
    · right
      obtain ⟨pre, h, post, hc⟩ := split_of_mem_fst hmem
      have hL : (he, h) ∈ L :=
        hI.sound (bucketIndex s hash) (hash % BKT_SIZE) (he, h) (by rw [hc]; simp)
      have hhash := hh h hL
      subst hhash
      have hnd := hI.nodup (bucketIndex s h) (h % BKT_SIZE)
      rw [hc, List.map_append, List.map_cons] at hnd
      have hpre : he ∉ pre.map Prod.fst :=
        fun hx => (List.nodup_append.mp hnd).2.2 hx (List.mem_cons_self _ _)
      have hch := hI.chain (bucketIndex s h) (h % BKT_SIZE)
      rw [hc] at hch
      refine ⟨List.mem_map_of_mem _ hL, pre.length + 1, h % BKT_SIZE, pre, post,
        by rw [hc, List.length_append]; omega, hc, ?_⟩
      intro fuel
      have h1 := list_remove_present (.head (bucketIndex s h) (h % BKT_SIZE)) he h pre post
        (.head (bucketIndex s h) (h % BKT_SIZE)) fuel 0 hch hpre (by simp)
      unfold p64_hashtable_remove
      rw [if_neg hb]
      simp only [bucketIndex] at hbr h1 ⊢
      simp only [hbr, h1]
      by_cases hf : pre.length < fuel
      · rw [if_pos hf, if_pos (by omega)]; simp
      · rw [if_neg hf, if_neg (by omega)]
    · left
      have habs : he ∉ L.map Prod.fst := by
        intro hL
        obtain ⟨p, hp, hpe⟩ := List.mem_map.mp hL
        obtain ⟨e, h⟩ := p
        simp only at hpe
        subst hpe
        have hhash := hh h hp
        subst hhash
        obtain ⟨b, i, hbi⟩ := hI.complete (e, h) hp
        have hbk := hI.bkt b i (e, h) hbi
        simp only at hbk
        subst hbk
        cases hci : c (bucketIndex s h) i with
        | nil => rw [hci] at hbi; cases hbi
        | cons q rest =>
          rw [hci] at hbi
          rcases List.mem_cons.mp hbi with hq | hq
          · have hch := hI.chain (bucketIndex s h) i
            rw [hci, ← hq] at hch
            obtain ⟨_, _, g3, _⟩ := hch
            have hr := hI.range (bucketIndex s h) i (by rw [hci]; simp)
            apply hnohead i hr.2
            rw [← load_head, g3]
          · have hsl := hI.slot (bucketIndex s h) i (e, h) (by rw [hci]; exact hq)
            simp only at hsl
            subst hsl
            apply hmem
            rw [hci]
            exact List.mem_map_of_mem _ (List.mem_cons_of_mem _ hq)
      refine ⟨habs, (c (bucketIndex s hash) (hash % BKT_SIZE)).length + 1, le_refl _, ?_⟩
      intro fuel
      have h1 := list_remove_absent (.head (bucketIndex s hash) (hash % BKT_SIZE)) he hash
        (c (bucketIndex s hash) (hash % BKT_SIZE))
        (.head (bucketIndex s hash) (hash % BKT_SIZE)) fuel 0 (hI.chain _ _) hmem
      unfold p64_hashtable_remove
      rw [if_neg hb]
      simp only [bucketIndex] at hbr h1 ⊢
      simp only [hbr, h1]
      by_cases hf : (c (hash / BKT_SIZE % s.nbkts) (hash % BKT_SIZE)).length < fuel
      · rw [if_pos hf, if_pos (by omega)]; simp [account_zero]
      · rw [if_neg hf, if_neg (by omega)]

/-- What `p64_hashtable_remove` does on a state that satisfies the invariant:
either `he` is not present, the call returns false and leaves the state as it
is, or `he` is unlinked from its chain and the call returns true. -/
theorem remove_spec {s : State} {L : List (Nat × Nat)} {c : Nat → Nat → List (Nat × Nat)}
    (hI : Inv s L c) {he hash : Nat} (h0 : he ≠ 0) (hh : ∀ h, (he, h) ∈ L → h = hash)
    (hb : s.nbkts ≠ 0) :
    (he ∉ L.map Prod.fst ∧ ∃ N, ∀ fuel, p64_hashtable_remove fuel s he hash =
        if N ≤ fuel then .done (s, false) else .nofuel) ∨
    (he ∈ L.map Prod.fst ∧ ∃ N j pre post,
      c (bucketIndex s hash) j = pre ++ (he, hash) :: post ∧
      ∀ fuel, p64_hashtable_remove fuel s he hash =
        if N ≤ fuel then
          .done (account ((remove_node_mark s he).store
            (lastLoc (.head (bucketIndex s hash) j) pre) (s.mem he)) 1, true)
        else .nofuel) := by
  rcases remove_spec_bound hI h0 hh hb with ⟨h1, N, _, h2⟩ | ⟨h1, N, j, pre, post, _, h2, h3⟩
  · exact Or.inl ⟨h1, N, h2⟩
  · exact Or.inr ⟨h1, N, j, pre, post, h2, h3⟩

/-- Remove keeps the representation invariant, the chains losing `he`. -/
theorem Inv_remove {s s1 : State} {L : List (Nat × Nat)} {c : Nat → Nat → List (Nat × Nat)}
    (hI : Inv s L c) {fuel he hash : Nat} {r : Bool} (h0 : he ≠ 0)
    (hh : ∀ h, (he, h) ∈ L → h = hash)
    (hr : p64_hashtable_remove fuel s he hash = .done (s1, r)) :
    Inv s1 (L.filter (fun p => p.1 != he)) (fun b i => (c b i).filter (fun p => p.1 != he)) ∧
      (r = true ↔ he ∈ L.map Prod.fst) ∧ (r = false → s1 = s) := by
  have hb : s.nbkts ≠ 0 := by
    intro hb
    simp [p64_hashtable_remove, hb] at hr
  rcases remove_spec hI h0 hh hb with ⟨habs, N, hrun⟩ | ⟨hpres, N, j, pre, post, hc, hrun⟩
  · rw [hrun fuel] at hr
    by_cases hf : N ≤ fuel
    · rw [if_pos hf] at hr
      injection hr with hr
      injection hr with hs hr
      subst hs hr
      refine ⟨?_, by simp [habs], fun _ => rfl⟩
      refine Inv_filter hI he rfl ?_
      intro b i
      rw [filter_ne_self (fun h => habs (hI.fst_mem_L h))]
      exact hI.chain b i
    · rw [if_neg hf] at hr
      cases hr
  · rw [hrun fuel] at hr
    by_cases hf : N ≤ fuel
    · rw [if_pos hf] at hr
      injection hr with hr
      injection hr with hs hr
      subst hs hr
      exact ⟨Inv_remove_at hI hc 1, by simp [hpres], fun h => by cases h⟩
    · rw [if_neg hf] at hr
      cases hr

/-! ## Lookup -/

theorem bucket_lookup_loop_spec {s : State} {b : Nat} {cf : Nat → Nat → Int} {key : Nat} :
    ∀ mask : List Nat, (∀ i ∈ mask, (s.buckets b i).next % 2 = 0) →
      ∃ r, bucket_lookup_loop s b cf key mask = .done r ∧
        ((r = 0 ∧ ∀ i ∈ mask, (s.buckets b i).next = 0 ∨ cf (s.buckets b i).next key ≠ 0) ∨
          (r ≠ 0 ∧ cf r key = 0 ∧ ∃ i ∈ mask, (s.buckets b i).next = r)) := by
  intro mask
  induction mask with
  | nil => intro _; exact ⟨0, rfl, Or.inl ⟨rfl, fun i hi => by cases hi⟩⟩
  | cons i mask ih =>
    intro hev
    have hi := hev i (List.mem_cons_self _ _)
    by_cases hhit : (s.buckets b i).next ≠ 0 ∧ cf (s.buckets b i).next key = 0
    · refine ⟨(s.buckets b i).next, ?_, Or.inr ⟨hhit.1, hhit.2, i, List.mem_cons_self _ _, rfl⟩⟩
      simp only [bucket_lookup_loop, hp_acquire, load_head, REM_MARK_even hi, ne_eq, not_true_eq_false, if_false]
      rw [if_pos hhit]
    · obtain ⟨r, hr, hcase⟩ := ih (fun k hk => hev k (List.mem_cons_of_mem _ hk))
      refine ⟨r, ?_, ?_⟩
      · simp only [bucket_lookup_loop, hp_acquire, load_head, REM_MARK_even hi, ne_eq, not_true_eq_false, if_false]
        rw [if_neg hhit]
        exact hr
      · rcases hcase with ⟨h1, h2⟩ | ⟨h1, h2, k, hk, h3⟩
        · refine Or.inl ⟨h1, ?_⟩
          intro k hk
          rcases List.mem_cons.mp hk with rfl | hk
          · by_cases h0 : (s.buckets b k).next = 0
            · exact Or.inl h0
            · exact Or.inr (fun h => hhit ⟨h0, h⟩)
          · exact h2 k hk
        · exact Or.inr ⟨h1, h2, k, List.mem_cons_of_mem _ hk, h3⟩

theorem Inv.head_first {s : State} {L : List (Nat × Nat)} {c : Nat → Nat → List (Nat × Nat)}
    (hI : Inv s L c) {b i : Nat} (h : (s.buckets b i).next ≠ 0) :
    ∃ rest, c b i = ((s.buckets b i).next, (s.buckets b i).hash) :: rest := by
  have hch := hI.chain b i
  cases hci : c b i with
  | nil =>
    rw [hci] at hch
    rw [← load_head, show s.load (.head b i) = ⟨0, 0⟩ from hch] at h
    exact absurd rfl h
  | cons p rest =>
    obtain ⟨e, g⟩ := p
    rw [hci] at hch
    obtain ⟨_, _, g3, _⟩ := hch
    rw [← load_head, g3]
    exact ⟨rest, rfl⟩

/-- The head scan of lookup on a state that satisfies the invariant: it never
fails its assertion, and it returns either `NULL`, when no head slot with the
queried hash has a matching entry, or the entry of such a head slot. -/
theorem bucket_lookup_inv {s : State} {L : List (Nat × Nat)} {c : Nat → Nat → List (Nat × Nat)}
    (hI : Inv s L c) (b : Nat) (cf : Nat → Nat → Int) (key hash : Nat) :
    ∃ r, bucket_lookup s b cf key hash = .done r ∧
      ((r = 0 ∧ ∀ i, i < BKT_SIZE → (s.buckets b i).hash = hash →
          (s.buckets b i).next = 0 ∨ cf (s.buckets b i).next key ≠ 0) ∨
        (r ≠ 0 ∧ cf r key = 0 ∧ ∃ i, i < BKT_SIZE ∧ s.buckets b i = ⟨hash, r⟩)) := by
  obtain ⟨r, hr, hcase⟩ := @bucket_lookup_loop_spec s b cf key
    ((List.range BKT_SIZE).filter (fun i => (s.buckets b i).hash = hash))
    (fun i _ => IsChain_next_even (hI.chain b i))
  refine ⟨r, hr, ?_⟩
  rcases hcase with ⟨h1, h2⟩ | ⟨h1, h2, k, hk, h3⟩
  · refine Or.inl ⟨h1, ?_⟩
    intro i hi hh
    exact h2 i (List.mem_filter.mpr ⟨List.mem_range.mpr hi, by simpa using hh⟩)
  · refine Or.inr ⟨h1, h2, k, ?_⟩
    rw [List.mem_filter] at hk
    refine ⟨List.mem_range.mp hk.1, ?_⟩
    have hh : (s.buckets b k).hash = hash := by simpa using hk.2
    rw [← hh, ← h3]

theorem list_lookup_total {s : State} {cf : Nat → Nat → Int} {key : Nat} (c : List (Nat × Nat)) :
    ∀ l : Loc, IsChain s l c →
      ∃ r, ∀ fuel, c.length < fuel → list_lookup s cf key fuel l = .done r := by
  induction c with
  | nil =>
    intro l h
    refine ⟨0, ?_⟩
    intro fuel hf
    rw [list_lookup_miss [] l fuel h (fun p hp => by cases hp), if_pos hf]
  | cons p c ih =>
    obtain ⟨e1, h1⟩ := p
    intro l h
    obtain ⟨g1, g2, g3, g4⟩ := h
    by_cases hcf : cf e1 key = 0
    · refine ⟨e1, ?_⟩
      intro fuel hf
      cases fuel with
      | zero => cases hf
      | succ fuel => simp [list_lookup, hp_acquire, g3, REM_MARK_even g2, g1, hcf]
    · obtain ⟨r, hr⟩ := ih (.node e1) g4
      refine ⟨r, ?_⟩
      intro fuel hf
      cases fuel with
      | zero => cases hf
      | succ fuel =>
        simp only [list_lookup, hp_acquire, g3, REM_MARK_even g2, g1, hcf, if_false]
        exact hr fuel (by simpa using hf)

/-- Lookup returns on every state that satisfies the invariant and has a
bucket. -/
theorem lookup_total {s : State} {L : List (Nat × Nat)} {c : Nat → Nat → List (Nat × Nat)}
    (hI : Inv s L c) (hb : s.nbkts ≠ 0) (cf : Nat → Nat → Int) (key hash : Nat) :
    ∃ N r, ∀ fuel, N ≤ fuel → p64_hashtable_lookup fuel s cf key hash = .done r := by
  obtain ⟨r, hr, _⟩ := bucket_lookup_inv hI (bucketIndex s hash) cf key hash
  by_cases h0 : r = 0
  · obtain ⟨r1, hr1⟩ := @list_lookup_total s cf key
      (c (bucketIndex s hash) (hash % BKT_SIZE)) _ (hI.chain _ _)
    refine ⟨(c (bucketIndex s hash) (hash % BKT_SIZE)).length + 1, r1, ?_⟩
    intro fuel hf
    unfold p64_hashtable_lookup
    rw [if_neg hb]
    simp only [bucketIndex] at hr hr1 hf ⊢
    simp only [hr, h0, ne_eq, not_true_eq_false, if_false]
    exact hr1 fuel (by omega)
  · refine ⟨0, r, ?_⟩
    intro fuel _
    unfold p64_hashtable_lookup
    rw [if_neg hb]
    simp only [bucketIndex] at hr ⊢
    simp only [hr, ne_eq, h0, not_false_eq_true, if_true]

/-- An entry returned by lookup matches the comparator and is either the entry
of a head slot of the bucket that stores the queried hash, or an entry of the
chain off head slot `hash mod BKT_SIZE`. -/
theorem lookup_sound {s : State} {L : List (Nat × Nat)} {c : Nat → Nat → List (Nat × Nat)}
    (hI : Inv s L c) {fuel : Nat} {cf : Nat → Nat → Int} {key hash r : Nat}
    (hl : p64_hashtable_lookup fuel s cf key hash = .done r) (hr0 : r ≠ 0) :
    cf r key = 0 ∧
      ((∃ i, i < BKT_SIZE ∧ s.buckets (bucketIndex s hash) i = ⟨hash, r⟩) ∨
        r ∈ (c (bucketIndex s hash) (hash % BKT_SIZE)).map Prod.fst) := by
  have hb : s.nbkts ≠ 0 := by
    intro hb
    simp [p64_hashtable_lookup, hb] at hl
  obtain ⟨r1, hr1, hcase⟩ := bucket_lookup_inv hI (bucketIndex s hash) cf key hash
  unfold p64_hashtable_lookup at hl
  rw [if_neg hb] at hl
  simp only [bucketIndex] at hr1 hl hcase ⊢
  simp only [hr1] at hl
  by_cases h0 : r1 = 0
  · simp only [h0, ne_eq, not_true_eq_false, if_false] at hl
    have := list_lookup_sound _ _ fuel r (hI.chain _ _) hl hr0
    exact ⟨this.2, Or.inr this.1⟩
  · simp only [ne_eq, h0, not_false_eq_true, if_true] at hl
    injection hl with hl
    subst hl
    rcases hcase with ⟨h1, _⟩ | ⟨_, h2, h3⟩
    · exact absurd h1 h0
    · exact ⟨h2, Or.inl h3⟩

/-- Lookup finds a present entry under its insertion hash when the comparator
matches no other present entry. -/
theorem lookup_hit {s : State} {L : List (Nat × Nat)} {c : Nat → Nat → List (Nat × Nat)}
    (hI : Inv s L c) {e h : Nat} (hin : (e, h) ∈ L) (cf : Nat → Nat → Int) (key : Nat)
    (hcf : cf e key = 0) (huniq : ∀ p ∈ L, p.1 ≠ e → cf p.1 key ≠ 0) :
    ∃ N, ∀ fuel, N ≤ fuel → p64_hashtable_lookup fuel s cf key h = .done e := by
  obtain ⟨b, i, hbi⟩ := hI.complete (e, h) hin
  have hbk : bucketIndex s h = b := hI.bkt b i (e, h) hbi
  subst hbk
  have hrange := hI.range (bucketIndex s h) i (List.ne_nil_of_mem hbi)
  have hb : s.nbkts ≠ 0 := by omega
  have he0 := (IsChain_mem_ne_zero (hI.chain _ _) (e, h) hbi).1
  obtain ⟨r, hr, hcase⟩ := bucket_lookup_inv hI (bucketIndex s h) cf key h
  rcases hcase with ⟨h1, h2⟩ | ⟨h1, h2, k, hk, h3⟩
  · -- the head scan found nothing: the entry is on the chain of slot h mod BKT_SIZE
    have htail : (e, h) ∈ (c (bucketIndex s h) i).tail := by
      cases hci : c (bucketIndex s h) i with
      | nil => rw [hci] at hbi; cases hbi
      | cons q rest =>
        rw [hci] at hbi
        rcases List.mem_cons.mp hbi with hq | hq
        · exfalso
          have hch := hI.chain (bucketIndex s h) i
          rw [hci, ← hq] at hch
          obtain ⟨_, _, g3, _⟩ := hch
          rw [load_head] at g3
          rcases h2 i hrange.2 (by rw [g3]) with h4 | h4
          · rw [g3] at h4; exact he0 h4
          · rw [g3] at h4; exact h4 hcf
        · exact hq
    have hslot : h % BKT_SIZE = i := hI.slot _ _ (e, h) htail
    subst hslot
    obtain ⟨pre, post, hc⟩ := List.append_of_mem hbi
    have hnd := hI.nodup (bucketIndex s h) (h % BKT_SIZE)
    rw [hc, List.map_append, List.map_cons] at hnd
    have hpre : ∀ p ∈ pre, cf p.1 key ≠ 0 := by
      intro p hp
      apply huniq p (hI.sound (bucketIndex s h) (h % BKT_SIZE) p (by rw [hc]; simp [hp]))
      intro hpe
      exact (List.nodup_append.mp hnd).2.2 (List.mem_map_of_mem _ hp)
        (by rw [hpe]; exact List.mem_cons_self _ _)
    have hch := hI.chain (bucketIndex s h) (h % BKT_SIZE)
    rw [hc] at hch
    refine ⟨pre.length + 1, ?_⟩
    intro fuel hf
    have hl := list_lookup_hit pre post _ fuel hch hpre hcf
    unfold p64_hashtable_lookup
    rw [if_neg hb]
    simp only [bucketIndex] at hr hl ⊢
    simp only [hr, h1, ne_eq, not_true_eq_false, if_false]
    rw [hl, if_pos (by omega)]
  · -- the head scan returned an entry that matches: it can only be e
    have hre : r = e := by
      by_contra hne
      have hnx : (s.buckets (bucketIndex s h) k).next ≠ 0 := by rw [h3]; exact h1
      obtain ⟨rest, hrest⟩ := hI.head_first hnx
      have hL := hI.sound (bucketIndex s h) k _ (by rw [hrest]; exact List.mem_cons_self _ _)
      rw [h3] at hL
      exact huniq _ hL hne h2
    subst hre
    refine ⟨0, ?_⟩
    intro fuel _
    unfold p64_hashtable_lookup
    rw [if_neg hb]
    simp only [bucketIndex] at hr ⊢
    simp only [hr, ne_eq, h1, not_false_eq_true, if_true]

/-- Lookup returns `NULL` when the comparator matches no present entry. -/
theorem lookup_miss {s : State} {L : List (Nat × Nat)} {c : Nat → Nat → List (Nat × Nat)}
    (hI : Inv s L c) (hb : s.nbkts ≠ 0) (cf : Nat → Nat → Int) (key hash : Nat)
    (hnone : ∀ p ∈ L, cf p.1 key ≠ 0) :
    ∃ N, ∀ fuel, N ≤ fuel → p64_hashtable_lookup fuel s cf key hash = .done 0 := by
  obtain ⟨r, hr, hcase⟩ := bucket_lookup_inv hI (bucketIndex s hash) cf key hash
  rcases hcase with ⟨h1, _⟩ | ⟨h1, h2, k, _, h3⟩
  · refine ⟨(c (bucketIndex s hash) (hash % BKT_SIZE)).length + 1, ?_⟩
    intro fuel hf
    have hl := @list_lookup_miss s cf key
      (c (bucketIndex s hash) (hash % BKT_SIZE)) _ fuel (hI.chain _ _)
      (fun p hp => hnone p (hI.sound _ _ p hp))
    unfold p64_hashtable_lookup
    rw [if_neg hb]
    simp only [bucketIndex] at hr hl hf ⊢
    simp only [hr, h1, ne_eq, not_true_eq_false, if_false]
    rw [hl, if_pos (by omega)]
  · exfalso
    have hnx : (s.buckets (bucketIndex s hash) k).next ≠ 0 := by rw [h3]; exact h1
    obtain ⟨rest, hrest⟩ := hI.head_first hnx
    have hL := hI.sound (bucketIndex s hash) k _ (by rw [hrest]; exact List.mem_cons_self _ _)
    rw [h3] at hL
    exact hnone _ hL h2

/-! ## Reachable states -/

theorem Reach.inv {s : State} {L : List (Nat × Nat)} (hR : Reach s L) : ∃ c, Inv s L c := by
  induction hR with
  | alloc nentries mem _ => exact ⟨_, Inv_alloc nentries mem⟩
  | insert fuel he hash _ h0 hev hn hrun ih =>
    obtain ⟨c, hI⟩ := ih
    exact Inv_insert hI h0 hev hn hrun
  | remove fuel he hash r _ h0 hh hrun ih =>
    obtain ⟨c, hI⟩ := ih
    exact ⟨_, (Inv_remove hI h0 hh hrun).1⟩

theorem Inv.linked_iff {s : State} {L : List (Nat × Nat)} {c : Nat → Nat → List (Nat × Nat)}
    (hI : Inv s L c) (e : Nat) : Linked s e ↔ e ∈ L.map Prod.fst := by
  constructor
  · rintro ⟨b, i, _, _, hr⟩
    exact hI.fst_mem_L ((PtrReach_of_IsChain (hI.chain b i) e).mp hr)
  · intro h
    obtain ⟨p, hp, rfl⟩ := List.mem_map.mp h
    obtain ⟨b, i, hbi⟩ := hI.complete p hp
    have hrange := hI.range b i (List.ne_nil_of_mem hbi)
    exact ⟨b, i, hrange.1, hrange.2,
      (PtrReach_of_IsChain (hI.chain b i) p.1).mpr (List.mem_map_of_mem _ hbi)⟩

/-! ## Example runs -/

theorem demo0_reach : Reach demo0 [] := Reach.alloc 4 demoMem (by decide)

theorem demo1_reach : Reach demo1 [(16, 5)] :=
  Reach.insert 8 16 5 demo0_reach (by decide) (by decide) (by decide) rfl

theorem demo5_reach : Reach demo5 [(80, 5), (64, 5), (48, 5), (32, 5), (16, 5)] :=
  Reach.insert 8 80 5
    (Reach.insert 8 64 5
      (Reach.insert 8 48 5
        (Reach.insert 8 32 5 demo1_reach (by decide) (by decide) (by decide) rfl)
        (by decide) (by decide) (by decide) rfl)
      (by decide) (by decide) (by decide) rfl)
    (by decide) (by decide) (by decide) rfl

theorem demo5_heads : demo5.buckets 0 0 = ⟨5, 16⟩ ∧ demo5.buckets 0 1 = ⟨5, 32⟩ ∧
    demo5.buckets 0 2 = ⟨5, 48⟩ ∧ demo5.buckets 0 3 = ⟨5, 64⟩ ∧ demo5.mem 32 = ⟨5, 80⟩ ∧
    demo5.mem 80 = ⟨0, 0⟩ ∧ demo5.nbkts = 1 :=
  ⟨rfl, rfl, rfl, rfl, rfl, rfl, rfl⟩

/-! ## Contract of the table on sequential runs -/

/-- C1 (reachability): on every state reached by a sequential run, an entry
`e` that was inserted with hash `h` and not removed since is returned by
`p64_hashtable_lookup` under hash `h`, for every comparator and key that match
`e` and no other present entry; the lookup returns for every fuel from some
bound on. -/
theorem C1_reachability {s : State} {L : List (Nat × Nat)} (hR : Reach s L) {e h : Nat}
    (hin : (e, h) ∈ L) (cf : Nat → Nat → Int) (key : Nat) (hcf : cf e key = 0)
    (huniq : ∀ p ∈ L, p.1 ≠ e → cf p.1 key ≠ 0) :
    ∃ N, ∀ fuel, N ≤ fuel → p64_hashtable_lookup fuel s cf key h = .done e := by
  obtain ⟨c, hI⟩ := hR.inv
  exact lookup_hit hI hin cf key hcf huniq

theorem C1_reachability_witness :
    ∃ N, ∀ fuel, N ≤ fuel → p64_hashtable_lookup fuel demo5 cmpAddr 80 5 = .done 80 :=
  C1_reachability demo5_reach (by decide) cmpAddr 80 (by decide) (by decide)

/-- C2 (round trip): on every reachable state with at least one bucket, for an
entry `e` that is not linked and a key that the comparator matches on `e`
only, `insert(e, h)` returns, the lookup after it returns `e`, `remove(e, h)`
returns true and the lookup after that returns `NULL`. -/
theorem C2_round_trip {s : State} {L : List (Nat × Nat)} (hR : Reach s L) (hb : s.nbkts ≠ 0)
    {e : Nat} (h : Nat) (cf : Nat → Nat → Int) (key : Nat) (h0 : e ≠ 0) (hev : e % 2 = 0)
    (hn : e ∉ L.map Prod.fst) (hcf : cf e key = 0) (huniq : ∀ p ∈ L, cf p.1 key ≠ 0) :
    ∃ N s1 s2, ∀ fuel, N ≤ fuel →
      p64_hashtable_insert fuel s e h = .done s1 ∧
      p64_hashtable_lookup fuel s1 cf key h = .done e ∧
      p64_hashtable_remove fuel s1 e h = .done (s2, true) ∧
      p64_hashtable_lookup fuel s2 cf key h = .done 0 := by
  obtain ⟨c, hI⟩ := hR.inv
  obtain ⟨j, N1, hj, hcase, hrun1⟩ := insert_spec hI h h0 hn hb
  have hslot : c (bucketIndex s h) j = [] ∨ j = h % BKT_SIZE := by
    rcases hcase with hc | hc
    · exact Or.inl hc.1
    · exact Or.inr hc.1
  have hI1 := Inv_insert_at hI h h0 hev hn hb hj hslot
  obtain ⟨N2, hrun2⟩ := lookup_hit hI1 (List.mem_cons_self _ _) cf key hcf
    (by
      intro p hp hne
      rcases List.mem_cons.mp hp with rfl | hp
      · exact absurd rfl hne
      · exact huniq p hp)
  have hh : ∀ h1, (e, h1) ∈ (e, h) :: L → h1 = h := by
    intro h1 hm
    rcases List.mem_cons.mp hm with hm | hm
    · injection hm with _ hm
    · exact absurd (List.mem_map_of_mem Prod.fst hm) hn
  rcases remove_spec hI1 h0 hh (by simpa using hb) with
    ⟨habs, _⟩ | ⟨_, N3, j3, pre, post, hc3, hrun3⟩
  · exact absurd (by simp) habs
  · have hI2 := Inv_remove_at hI1 hc3 1
    obtain ⟨N4, hrun4⟩ := lookup_miss hI2 (by simpa using hb) cf key h
      (by
        intro p hp
        rw [List.mem_filter] at hp
        rcases List.mem_cons.mp hp.1 with rfl | hp1
        · simp at hp
        · exact huniq p hp1)
    exact ⟨N1 + N2 + N3 + N4, _, _, fun fuel hf =>
      ⟨(hrun1 fuel).trans (if_pos (by omega)), hrun2 fuel (by omega),
        (hrun3 fuel).trans (if_pos (by omega)), hrun4 fuel (by omega)⟩⟩

theorem C2_round_trip_witness :
    ∃ N s1 s2, ∀ fuel, N ≤ fuel →
      p64_hashtable_insert fuel demo5 96 5 = .done s1 ∧
      p64_hashtable_lookup fuel s1 cmpAddr 96 5 = .done 96 ∧
      p64_hashtable_remove fuel s1 96 5 = .done (s2, true) ∧
      p64_hashtable_lookup fuel s2 cmpAddr 96 5 = .done 0 :=
  C2_round_trip demo5_reach (by decide) 5 cmpAddr 96 (by decide) (by decide) (by decide)
    (by decide) (by decide)

/-- C3 (no phantom): on every reachable state a lookup returns when the table
has a bucket, and an entry it returns other than `NULL` is present (inserted
and not removed since), is linked in the table and matches the comparator. -/
theorem C3_no_phantom {s : State} {L : List (Nat × Nat)} (hR : Reach s L)
    (cf : Nat → Nat → Int) (key hash : Nat) :
    (s.nbkts ≠ 0 →
      ∃ N r, ∀ fuel, N ≤ fuel → p64_hashtable_lookup fuel s cf key hash = .done r) ∧
    ∀ fuel r, p64_hashtable_lookup fuel s cf key hash = .done r → r ≠ 0 →
      r ∈ L.map Prod.fst ∧ Linked s r ∧ cf r key = 0 := by
  obtain ⟨c, hI⟩ := hR.inv
  refine ⟨fun hb => lookup_total hI hb cf key hash, ?_⟩
  intro fuel r hl hr0
  obtain ⟨hcf, hcase⟩ := lookup_sound hI hl hr0
  have hmem : r ∈ L.map Prod.fst := by
    rcases hcase with ⟨i, _, hi⟩ | hch
    · have hnx : (s.buckets (bucketIndex s hash) i).next ≠ 0 := by rw [hi]; exact hr0
      obtain ⟨rest, hrest⟩ := hI.head_first hnx
      have := hI.sound (bucketIndex s hash) i _ (by rw [hrest]; exact List.mem_cons_self _ _)
      rw [hi] at this
      exact List.mem_map_of_mem Prod.fst this
    · exact hI.fst_mem_L hch
  exact ⟨hmem, (hI.linked_iff r).mpr hmem, hcf⟩

theorem C3_no_phantom_witness :
    (demo5.nbkts ≠ 0 →
      ∃ N r, ∀ fuel, N ≤ fuel → p64_hashtable_lookup fuel demo5 cmpAddr 80 5 = .done r) ∧
    ∀ fuel r, p64_hashtable_lookup fuel demo5 cmpAddr 80 5 = .done r → r ≠ 0 →
      r ∈ [(80, 5), (64, 5), (48, 5), (32, 5), (16, 5)].map Prod.fst ∧ Linked demo5 r ∧
        cmpAddr r 80 = 0 :=
  C3_no_phantom demo5_reach cmpAddr 80 5

/-- C4, as the claim states it, fails: after `insert(16, 5)` into a fresh
one-bucket table the lookup of key 16 under hash 4 returns entry 16, although
the parent slot of 16 stores hash 5. -/
theorem C4_counterexample :
    Reach demo1 [(16, 5)] ∧ demo1.buckets 0 0 = ⟨5, 16⟩ ∧
      p64_hashtable_lookup 8 demo1 cmpAddr 16 4 = .done 16 ∧ (demo1.buckets 0 0).hash ≠ 4 :=
  ⟨demo1_reach, rfl, by decide, by decide⟩

/-- C4 (amended): on every reachable state, an entry returned by
`p64_hashtable_lookup(ht, cmp, key, hash)` matches the comparator, is present,
was inserted under a hash of the same bucket as `hash`, and either some head
slot of that bucket holds the pair (`hash`, entry), so its insertion hash is
`hash`, or the entry lies on the chain off head slot `hash mod BKT_SIZE`,
where the walk compares with the comparator only. -/
theorem C4_lookup_hash_amended {s : State} {L : List (Nat × Nat)} (hR : Reach s L)
    {fuel : Nat} {cf : Nat → Nat → Int} {key hash r : Nat}
    (hl : p64_hashtable_lookup fuel s cf key hash = .done r) (hr0 : r ≠ 0) :
    cf r key = 0 ∧ ∃ h1, (r, h1) ∈ L ∧ bucketIndex s h1 = bucketIndex s hash ∧
      ((∃ i, i < BKT_SIZE ∧ s.buckets (bucketIndex s hash) i = ⟨hash, r⟩ ∧ h1 = hash) ∨
        PtrReach s (.head (bucketIndex s hash) (hash % BKT_SIZE)) r) := by
  obtain ⟨c, hI⟩ := hR.inv
  obtain ⟨hcf, hcase⟩ := lookup_sound hI hl hr0
  refine ⟨hcf, ?_⟩
  rcases hcase with ⟨i, hi4, hi⟩ | hch
  · have hnx : (s.buckets (bucketIndex s hash) i).next ≠ 0 := by rw [hi]; exact hr0
    obtain ⟨rest, hrest⟩ := hI.head_first hnx
    have hc : (r, hash) ∈ c (bucketIndex s hash) i := by
      rw [hrest, hi]; exact List.mem_cons_self _ _
    exact ⟨hash, hI.sound _ _ _ hc, rfl, Or.inl ⟨i, hi4, hi, rfl⟩⟩
  · obtain ⟨p, hp, hpr⟩ := List.mem_map.mp hch
    obtain ⟨e, h1⟩ := p
    simp only at hpr
    subst hpr
    exact ⟨h1, hI.sound _ _ _ hp, hI.bkt _ _ _ hp,
      Or.inr ((PtrReach_of_IsChain (hI.chain _ _) e).mpr hch)⟩

theorem C4_lookup_hash_amended_witness :
    cmpAddr 16 16 = 0 ∧ ∃ h1, (16, h1) ∈ [(16, 5)] ∧ bucketIndex demo1 h1 = bucketIndex demo1 4 ∧
      ((∃ i, i < BKT_SIZE ∧ demo1.buckets (bucketIndex demo1 4) i = ⟨4, 16⟩ ∧ h1 = 4) ∨
        PtrReach demo1 (.head (bucketIndex demo1 4) (4 % BKT_SIZE)) 16) :=
  @C4_lookup_hash_amended demo1 [(16, 5)] demo1_reach 8 cmpAddr 16 4 16 (by decide) (by decide)

/-- C5 (result of remove): on every reachable state with at least one bucket,
for a non-null entry `e` and a hash `h` that is the insertion hash of `e` when
`e` is present, `p64_hashtable_remove(ht, e, h)` returns, its result is true
exactly when `e` was linked in the table before the call, and after a true
result no head slot reaches `e`. -/
theorem C5_remove_result {s : State} {L : List (Nat × Nat)} (hR : Reach s L) (hb : s.nbkts ≠ 0)
    {e : Nat} (h : Nat) (h0 : e ≠ 0) (hh : ∀ h1, (e, h1) ∈ L → h1 = h) :
    ∃ N s1 r, (∀ fuel, N ≤ fuel → p64_hashtable_remove fuel s e h = .done (s1, r)) ∧
      (r = true ↔ Linked s e) ∧ (r = true → ¬ Linked s1 e) := by
  obtain ⟨c, hI⟩ := hR.inv
  rcases remove_spec hI h0 hh hb with ⟨habs, N, hrun⟩ | ⟨hpres, N, j, pre, post, hc, hrun⟩
  · refine ⟨N, s, false, fun fuel hf => (hrun fuel).trans (if_pos hf), ?_, fun hr => by cases hr⟩
    rw [hI.linked_iff e]
    simp [habs]
  · refine ⟨N, _, true, fun fuel hf => (hrun fuel).trans (if_pos hf), ?_, ?_⟩
    · rw [hI.linked_iff e]
      simp [hpres]
    · intro _ hlink
      have hI1 := Inv_remove_at hI hc 1
      rw [hI1.linked_iff e] at hlink
      obtain ⟨p, hp, hpe⟩ := List.mem_map.mp hlink
      rw [List.mem_filter] at hp
      simp [hpe] at hp

theorem C5_remove_result_witness :
    ∃ N s1 r, (∀ fuel, N ≤ fuel → p64_hashtable_remove fuel demo5 80 5 = .done (s1, r)) ∧
      (r = true ↔ Linked demo5 80) ∧ (r = true → ¬ Linked s1 80) :=
  C5_remove_result demo5_reach (by decide) 5 (by decide)
    (by intro h1 hm; simpa using hm)

/-- C6 (frame of remove): on every reachable state with at least one bucket,
`p64_hashtable_remove(ht, e, h)` returns and the chain off every head slot
afterwards is the chain before with `e` taken out, so the other entries keep
their relative order, stay
linked and are still returned by lookup under their own key and hash; when it
returns false the state, and with it every head slot, every entry and
`nused`, is unchanged. -/
theorem C6_remove_frame {s : State} {L : List (Nat × Nat)} (hR : Reach s L) (hb : s.nbkts ≠ 0)
    {e : Nat} (h : Nat) (h0 : e ≠ 0) (hh : ∀ h1, (e, h1) ∈ L → h1 = h) :
    ∃ N s1 r, (∀ fuel, N ≤ fuel → p64_hashtable_remove fuel s e h = .done (s1, r)) ∧
      (∀ b i, ∃ c, IsChain s (.head b i) c ∧
        IsChain s1 (.head b i) (c.filter (fun p => p.1 != e))) ∧
      (∀ e1, e1 ≠ e → Linked s e1 → Linked s1 e1) ∧
      (∀ e1 h1 cf key, (e1, h1) ∈ L → e1 ≠ e → cf e1 key = 0 →
        (∀ p ∈ L, p.1 ≠ e1 → p.1 ≠ e → cf p.1 key ≠ 0) →
        ∃ M, ∀ fuel, M ≤ fuel → p64_hashtable_lookup fuel s1 cf key h1 = .done e1) ∧
      (r = false → s1 = s) := by
  obtain ⟨c, hI⟩ := hR.inv
  have key : ∃ N s1 r, ∀ fuel, N ≤ fuel → p64_hashtable_remove fuel s e h = .done (s1, r) := by
    rcases remove_spec hI h0 hh hb with ⟨_, N, hrun⟩ | ⟨_, N, j, pre, post, _, hrun⟩
    · exact ⟨N, _, _, fun fuel hf => (hrun fuel).trans (if_pos hf)⟩
    · exact ⟨N, _, _, fun fuel hf => (hrun fuel).trans (if_pos hf)⟩
  obtain ⟨N, s1, r, hrun⟩ := key
  obtain ⟨hI1, _, hfalse⟩ := Inv_remove hI h0 hh (hrun N (le_refl N))
  refine ⟨N, s1, r, hrun, ?_, ?_, ?_, hfalse⟩
  · intro b i
    exact ⟨c b i, hI.chain b i, hI1.chain b i⟩
  · intro e1 hne hl
    rw [hI.linked_iff e1] at hl
    rw [hI1.linked_iff e1]
    obtain ⟨p, hp, hpe⟩ := List.mem_map.mp hl
    refine List.mem_map.mpr ⟨p, List.mem_filter.mpr ⟨hp, ?_⟩, hpe⟩
    simpa [hpe] using hne
  · intro e1 h1 cf key hin hne hcf huniq
    refine lookup_hit hI1 (List.mem_filter.mpr ⟨hin, by simpa using hne⟩) cf key hcf ?_
    intro p hp hpe
    rw [List.mem_filter] at hp
    exact huniq p hp.1 hpe (by simpa using hp.2)

theorem C6_remove_frame_witness :
    ∃ N s1 r, (∀ fuel, N ≤ fuel → p64_hashtable_remove fuel demo5 32 5 = .done (s1, r)) ∧
      (∀ b i, ∃ c, IsChain demo5 (.head b i) c ∧
        IsChain s1 (.head b i) (c.filter (fun p => p.1 != 32))) ∧
      (∀ e1, e1 ≠ 32 → Linked demo5 e1 → Linked s1 e1) ∧
      (∀ e1 h1 cf key, (e1, h1) ∈ [(80, 5), (64, 5), (48, 5), (32, 5), (16, 5)] → e1 ≠ 32 →
        cf e1 key = 0 →
        (∀ p ∈ [(80, 5), (64, 5), (48, 5), (32, 5), (16, 5)], p.1 ≠ e1 → p.1 ≠ 32 →
          cf p.1 key ≠ 0) →
        ∃ M, ∀ fuel, M ≤ fuel → p64_hashtable_lookup fuel s1 cf key h1 = .done e1) ∧
      (r = false → s1 = demo5) :=
  C6_remove_frame demo5_reach (by decide) 5 (by decide)
    (by intro h1 hm; simpa using hm)

/-- C7 (double insert), evaluated: after `insert(16, 5)` into a fresh
one-bucket table a second `insert(16, 5)` returns instead of aborting, and
entry 16 is then the `next` of head slots 0 and 1; the abort of `list_insert`
is reached only when the bucket has no free head slot and the entry is on the
chain that is walked, as for entry 80 in the full example table. -/
theorem C7_double_insert_returns :
    Reach demo1 [(16, 5)] ∧
      (∃ s2, p64_hashtable_insert 8 demo1 16 5 = .done s2 ∧
        s2.buckets 0 0 = ⟨5, 16⟩ ∧ s2.buckets 0 1 = ⟨5, 16⟩) ∧
      (∃ s2, p64_hashtable_insert 8 demo5 16 5 = .done s2 ∧
        s2.buckets 0 0 = ⟨5, 16⟩ ∧ s2.mem 80 = ⟨5, 16⟩) ∧
      p64_hashtable_insert 8 demo5 80 5 = .abort :=
  ⟨demo1_reach, ⟨_, rfl, rfl, rfl⟩, ⟨_, rfl, rfl, rfl⟩, rfl⟩

/-- C8 (bucket count), evaluated: for the capacity hint `2^32 - 1` the sum
`nentries + BKT_SIZE - 1` wraps around in 32 bits and the table gets no
bucket, where the ceiling of `capacity_hint / BKT_SIZE` is `2^30`. -/
theorem C8_alloc_wraps (mem : Nat → p64_hashentry) :
    (p64_hashtable_alloc 4294967295 mem).nbkts = 0 ∧
      ceilDiv 4294967295 BKT_SIZE = 1073741824 ∧
      (p64_hashtable_alloc 4294967295 mem).nused = 0 :=
  ⟨rfl, by decide, rfl⟩

/-- Below the wrap-around `p64_hashtable_alloc` gives the ceiling of
`nentries / BKT_SIZE` buckets, an unused counter of zero and empty head slots. -/
theorem alloc_ceiling (nentries : Nat) (mem : Nat → p64_hashentry)
    (h : nentries ≤ 2 ^ 32 - 4) :
    (p64_hashtable_alloc nentries mem).nbkts = ceilDiv nentries BKT_SIZE ∧
      (p64_hashtable_alloc nentries mem).nused = 0 ∧
      ∀ b i, (p64_hashtable_alloc nentries mem).buckets b i = ⟨0, 0⟩ := by
  refine ⟨?_, rfl, fun _ _ => rfl⟩
  simp only [p64_hashtable_alloc, ceilDiv, BKT_SIZE]
  rw [Nat.mod_eq_of_lt (by omega)]

theorem Inv.headPure {s : State} {L : List (Nat × Nat)} {c : Nat → Nat → List (Nat × Nat)}
    (hI : Inv s L c) : HeadPure s :=
  fun b i => HAS_MARK_even (IsChain_next_even (hI.chain b i))

/-- Every write of the source keeps head purity: the mark is set on an entry
record, and the two pair-CAS sites store an even `he` or a stripped pointer. -/
theorem HeadPure_steps {s : State} (hp : HeadPure s) :
    (∀ this, HeadPure (remove_node_mark s this)) ∧
    (∀ he v, HeadPure (s.store (.node he) v)) ∧
    (∀ prnt he hash s1 r, he % 2 = 0 → insert_node s prnt he hash = .done (s1, r) →
      HeadPure s1) ∧
    (∀ prnt this hash removed s1 r, remove_node s prnt this hash removed = .done (s1, r) →
      HeadPure s1) := by
  have hmark : ∀ this, HeadPure (remove_node_mark s this) := fun this b i => hp b i
  have hstore : ∀ (t : State) (l : Loc) (v : p64_hashentry), HeadPure t →
      HAS_MARK v.next = false → HeadPure (t.store l v) := by
    intro t l v ht hv b i
    cases l with
    | head b1 i1 =>
      simp only [State.store]
      split
      · exact hv
      · exact ht b i
    | node p => exact ht b i
  refine ⟨hmark, fun he v b i => hp b i, ?_, ?_⟩
  · intro prnt he hash s1 r hev hrun
    unfold insert_node at hrun
    split at hrun
    · cases hrun
    · split at hrun
      · cases hrun
      · simp only at hrun
        split at hrun
        · injection hrun with hrun
          injection hrun with hs _
          rw [← hs]
          exact hstore s prnt _ hp (HAS_MARK_even hev)
        · injection hrun with hrun
          injection hrun with hs _
          rw [← hs]
          exact hp
  · intro prnt this hash removed s1 r hrun
    unfold remove_node at hrun
    split at hrun
    · cases hrun
    · split at hrun
      · cases hrun
      · simp only at hrun
        split at hrun
        · injection hrun with hrun
          injection hrun with hs _
          rw [← hs]
          exact hstore _ prnt _ (hmark this) (HAS_MARK_REM_MARK _)
        · split at hrun
          · injection hrun with hrun
            injection hrun with hs _
            rw [← hs]
            exact hmark this
          · split at hrun
            · cases hrun
            · injection hrun with hrun
              injection hrun with hs _
              rw [← hs]
              exact hmark this

/-- C9 (head purity): on every state reached by a sequential run no head slot
has the REMOVE mark in its `next`; the same holds in the state between the
mark step and the unlink step of `remove_node`, for whatever entry is being
removed, and after the reset of the entry at the start of insert; hence the
assertion `REM_MARK(he) == he` of `bucket_lookup` never fails. -/
theorem C9_head_purity {s : State} {L : List (Nat × Nat)} (hR : Reach s L) :
    (∀ b i, HAS_MARK (s.buckets b i).next = false) ∧
    (∀ this b i, HAS_MARK ((remove_node_mark s this).buckets b i).next = false) ∧
    (∀ he b i, HAS_MARK ((s.store (.node he) ⟨0, 0⟩).buckets b i).next = false) ∧
    (∀ b cf key hash, bucket_lookup s b cf key hash ≠ .abort) := by
  obtain ⟨c, hI⟩ := hR.inv
  have hp := hI.headPure
  refine ⟨hp, (HeadPure_steps hp).1, fun he => (HeadPure_steps hp).2.1 he _, ?_⟩
  intro b cf key hash habort
  obtain ⟨r, hr, _⟩ := bucket_lookup_inv hI b cf key hash
  rw [hr] at habort
  cases habort

theorem C9_head_purity_witness :
    (∀ b i, HAS_MARK (demo5.buckets b i).next = false) ∧
    (∀ this b i, HAS_MARK ((remove_node_mark demo5 this).buckets b i).next = false) ∧
    (∀ he b i, HAS_MARK ((demo5.store (.node he) ⟨0, 0⟩).buckets b i).next = false) ∧
    (∀ b cf key hash, bucket_lookup demo5 b cf key hash ≠ .abort) :=
  C9_head_purity demo5_reach

theorem IsChain_suffix {s : State} {p : Nat × Nat} {post : List (Nat × Nat)}
    (pre : List (Nat × Nat)) :
    ∀ l : Loc, IsChain s l (pre ++ p :: post) → IsChain s (.node p.1) post := by
  induction pre with
  | nil =>
    intro l h
    obtain ⟨e, g⟩ := p
    exact h.2.2.2
  | cons q pre ih =>
    intro l h
    obtain ⟨e1, g1⟩ := q
    exact ih (.node e1) h.2.2.2

/-- C10 (pair atomicity): on every state reached by a sequential run, for
every parent `P`, a head slot of the table or a linked entry, whose `next` is
a non-null unmarked pointer `T`, the pair (`T`, `P.hash`) is among the pairs
inserted and not removed since: `P.hash` is the hash argument of the insert
call that inserted `T`. -/
theorem C10_pair_atomicity {s : State} {L : List (Nat × Nat)} (hR : Reach s L) (P : Loc)
    (hP : (∃ b i, b < s.nbkts ∧ i < BKT_SIZE ∧ P = .head b i) ∨ (∃ e, Linked s e ∧ P = .node e))
    (hT : (s.load P).next ≠ 0) (_hm : HAS_MARK (s.load P).next = false) :
    ((s.load P).next, (s.load P).hash) ∈ L := by
  obtain ⟨c, hI⟩ := hR.inv
  rcases hP with ⟨b, i, _, _, rfl⟩ | ⟨e, hl, rfl⟩
  · obtain ⟨rest, hrest⟩ := hI.head_first (b := b) (i := i) hT
    exact hI.sound b i _ (by rw [hrest]; exact List.mem_cons_self _ _)
  · rw [hI.linked_iff e] at hl
    obtain ⟨p, hp, hpe⟩ := List.mem_map.mp hl
    obtain ⟨b, i, hbi⟩ := hI.complete p hp
    obtain ⟨pre, post, hc⟩ := List.append_of_mem hbi
    have hch := hI.chain b i
    rw [hc] at hch
    have hsuf := IsChain_suffix pre _ hch
    rw [hpe] at hsuf
    cases post with
    | nil =>
      rw [show s.load (.node e) = ⟨0, 0⟩ from hsuf] at hT
      exact absurd rfl hT
    | cons q post =>
      obtain ⟨e2, h2⟩ := q
      obtain ⟨_, _, g3, _⟩ := hsuf
      rw [g3]
      exact hI.sound b i (e2, h2) (by rw [hc]; simp)

theorem C10_pair_atomicity_witness :
    ((demo5.load (.node 32)).next, (demo5.load (.node 32)).hash) ∈
      [(80, 5), (64, 5), (48, 5), (32, 5), (16, 5)] :=
  C10_pair_atomicity demo5_reach (.node 32)
    (Or.inr ⟨32, ⟨0, 1, by decide, by decide,
      PtrReach.next (s := demo5) (.head 0 1) (by decide)⟩, rfl⟩)
    (by decide) (by decide)

/-! ## Termination of the loops -/

/-- Lookup on a state that satisfies the invariant returns within the length
of the chain off head slot `hash mod BKT_SIZE` plus one loop iterations. -/
theorem lookup_bound {s : State} {L : List (Nat × Nat)} {c : Nat → Nat → List (Nat × Nat)}
    (hI : Inv s L c) (hb : s.nbkts ≠ 0) (cf : Nat → Nat → Int) (key hash : Nat) :
    ∃ r, ∀ fuel, (c (bucketIndex s hash) (hash % BKT_SIZE)).length + 1 ≤ fuel →
      p64_hashtable_lookup fuel s cf key hash = .done r := by
  obtain ⟨r, hr, _⟩ := bucket_lookup_inv hI (bucketIndex s hash) cf key hash
  by_cases h0 : r = 0
  · obtain ⟨r1, hr1⟩ := @list_lookup_total s cf key
      (c (bucketIndex s hash) (hash % BKT_SIZE)) _ (hI.chain _ _)
    refine ⟨r1, ?_⟩
    intro fuel hf
    unfold p64_hashtable_lookup
    rw [if_neg hb]
    simp only [bucketIndex] at hr hr1 hf ⊢
    simp only [hr, h0, ne_eq, not_true_eq_false, if_false]
    exact hr1 fuel (by omega)
  · refine ⟨r, ?_⟩
    intro fuel _
    unfold p64_hashtable_lookup
    rw [if_neg hb]
    simp only [bucketIndex] at hr ⊢
    simp only [hr, ne_eq, h0, not_false_eq_true, if_true]

/-- C11 (operations complete): on every reachable state with at least one
bucket, with `c` the chain off head slot `hash mod BKT_SIZE` of the bucket of
`hash`, each of lookup, insert of an entry that is not linked, and remove
returns for every fuel of at least the length of `c` plus one: the loops run at
most once per entry of the chain and once for the end of the list, and the
retry branches of `list_insert` and `list_remove`, which also consume fuel,
cannot repeat forever. -/
theorem C11_operations_complete {s : State} {L : List (Nat × Nat)} (hR : Reach s L)
    (hb : s.nbkts ≠ 0) (hash : Nat) :
    ∃ c, IsChain s (.head (bucketIndex s hash) (hash % BKT_SIZE)) c ∧
      (∀ cf key, ∃ r, ∀ fuel, c.length + 1 ≤ fuel →
        p64_hashtable_lookup fuel s cf key hash = .done r) ∧
      (∀ he, he ≠ 0 → he % 2 = 0 → he ∉ L.map Prod.fst →
        ∃ s1, ∀ fuel, c.length + 1 ≤ fuel → p64_hashtable_insert fuel s he hash = .done s1) ∧
      (∀ he, he ≠ 0 → (∀ h, (he, h) ∈ L → h = hash) →
        ∃ s1 r, ∀ fuel, c.length + 1 ≤ fuel →
          p64_hashtable_remove fuel s he hash = .done (s1, r)) := by
  obtain ⟨c, hI⟩ := hR.inv
  refine ⟨c (bucketIndex s hash) (hash % BKT_SIZE), hI.chain _ _,
    fun cf key => lookup_bound hI hb cf key hash, ?_, ?_⟩
  · intro he h0 _ hn
    obtain ⟨j, N, _, hcase, hrun⟩ := insert_spec hI hash h0 hn hb
    refine ⟨_, fun fuel hf => (hrun fuel).trans (if_pos ?_)⟩
    rcases hcase with ⟨_, hN⟩ | ⟨hj, hN, _⟩
    · omega
    · rw [hj] at hN; omega
  · intro he h0 hh
    rcases remove_spec_bound hI h0 hh hb with
      ⟨_, N, hN, hrun⟩ | ⟨_, N, j, pre, post, hN, _, hrun⟩
    · exact ⟨_, _, fun fuel hf => (hrun fuel).trans (if_pos (by omega))⟩
    · exact ⟨_, _, fun fuel hf => (hrun fuel).trans (if_pos (by omega))⟩

theorem C11_operations_complete_witness :
    ∃ c, IsChain demo5 (.head (bucketIndex demo5 5) (5 % BKT_SIZE)) c ∧
      (∀ cf key, ∃ r, ∀ fuel, c.length + 1 ≤ fuel →
        p64_hashtable_lookup fuel demo5 cf key 5 = .done r) ∧
      (∀ he, he ≠ 0 → he % 2 = 0 →
        he ∉ [(80, 5), (64, 5), (48, 5), (32, 5), (16, 5)].map Prod.fst →
        ∃ s1, ∀ fuel, c.length + 1 ≤ fuel → p64_hashtable_insert fuel demo5 he 5 = .done s1) ∧
      (∀ he, he ≠ 0 → (∀ h, (he, h) ∈ [(80, 5), (64, 5), (48, 5), (32, 5), (16, 5)] → h = 5) →
        ∃ s1 r, ∀ fuel, c.length + 1 ≤ fuel →
          p64_hashtable_remove fuel demo5 he 5 = .done (s1, r)) :=
  C11_operations_complete demo5_reach (by decide) 5

/-! ## Insert into a head slot and into a chain -/

theorem filter_range_lowest (p : Nat → Bool) {i : Nat} (hi : i < BKT_SIZE) (hp : p i = true)
    (hlow : ∀ k, k < i → p k = false) :
    ∃ rest, (List.range BKT_SIZE).filter p = i :: rest := by
  have h4 : List.range BKT_SIZE = [0, 1, 2, 3] := by decide
  have hcase : i = 0 ∨ i = 1 ∨ i = 2 ∨ i = 3 := by unfold BKT_SIZE at hi; omega
  rw [h4]
  rcases hcase with rfl | rfl | rfl | rfl
  · exact ⟨[1, 2, 3].filter p, by simp [List.filter_cons, hp]⟩
  · exact ⟨[2, 3].filter p, by simp [List.filter_cons, hp, hlow 0 (by decide)]⟩
  · exact ⟨[3].filter p, by simp [List.filter_cons, hp, hlow 0 (by decide), hlow 1 (by decide)]⟩
  · exact ⟨[], by simp [List.filter_cons, hp, hlow 0 (by decide), hlow 1 (by decide),
      hlow 2 (by decide)]⟩

/-- C13 (bucket insert): on every reachable state, when head slot `i` is the
lowest-indexed head slot of the bucket of `hash` with `next == NULL`,
`p64_hashtable_insert(ht, he, hash)` of an entry that is not linked returns
with head slot `i` set to (`hash`, `he`), the entry `he` left as (0, `NULL`),
and every other head slot of every bucket and every other entry unchanged. -/
theorem C13_bucket_insert {s : State} {L : List (Nat × Nat)} (hR : Reach s L) {he : Nat}
    (hash : Nat) (h0 : he ≠ 0) (hn : he ∉ L.map Prod.fst) (hb : s.nbkts ≠ 0) {i : Nat}
    (hi : i < BKT_SIZE) (hfree : (s.buckets (bucketIndex s hash) i).next = 0)
    (hlow : ∀ k, k < i → (s.buckets (bucketIndex s hash) k).next ≠ 0) :
    ∃ s1, (∀ fuel, p64_hashtable_insert fuel s he hash = .done s1) ∧
      s1.buckets (bucketIndex s hash) i = ⟨hash, he⟩ ∧ s1.mem he = ⟨0, 0⟩ ∧
      (∀ b1 i1, ¬(b1 = bucketIndex s hash ∧ i1 = i) → s1.buckets b1 i1 = s.buckets b1 i1) ∧
      (∀ p, p ≠ he → s1.mem p = s.mem p) := by
  obtain ⟨c, hI⟩ := hR.inv
  have hch0 := hI.chain_reset hn
  have hm0 : (s.store (.node he) ⟨0, 0⟩).mem he = ⟨0, 0⟩ := load_store_same s (.node he) _
  have hci : c (bucketIndex s hash) i = [] :=
    (IsChain_next_zero_iff (hI.chain (bucketIndex s hash) i)).mp (by simpa [load_head] using hfree)
  have hbi : (s.store (.node he) ⟨0, 0⟩).buckets (bucketIndex s hash) i = ⟨0, 0⟩ := by
    have := hch0 (bucketIndex s hash) i
    rw [hci] at this
    exact this
  obtain ⟨rest, hmask⟩ := filter_range_lowest
    (fun k => decide (((s.store (.node he) ⟨0, 0⟩).buckets (bucketIndex s hash) k).next = 0))
    hi (by simpa [State.store] using hfree)
    (by intro k hk; simpa [State.store] using hlow k hk)
  have h1 : bucket_insert (s.store (.node he) ⟨0, 0⟩) (bucketIndex s hash) he hash =
      .done ((s.store (.node he) ⟨0, 0⟩).store (.head (bucketIndex s hash) i) ⟨hash, he⟩,
        true) := by
    unfold bucket_insert; rw [hmask]
    exact bucket_insert_loop_cons hash rest hm0 hbi
  refine ⟨account ((s.store (.node he) ⟨0, 0⟩).store (.head (bucketIndex s hash) i)
    ⟨hash, he⟩) (-1), ?_, ?_, ?_, ?_, ?_⟩
  · intro fuel
    unfold p64_hashtable_insert
    rw [if_neg hb, if_neg h0]
    simp only [bucketIndex] at h1 ⊢
    simp only [h1]
  · simp [State.store]
  · simp [State.store]
  · intro b1 i1 hne
    simp [State.store, hne]
  · intro p hp
    simp [State.store, hp]

theorem C13_bucket_insert_witness :
    ∃ s1, (∀ fuel, p64_hashtable_insert fuel demo1 32 5 = .done s1) ∧
      s1.buckets (bucketIndex demo1 5) 1 = ⟨5, 32⟩ ∧ s1.mem 32 = ⟨0, 0⟩ ∧
      (∀ b1 i1, ¬(b1 = bucketIndex demo1 5 ∧ i1 = 1) → s1.buckets b1 i1 = demo1.buckets b1 i1) ∧
      (∀ p, p ≠ 32 → s1.mem p = demo1.mem p) :=
  C13_bucket_insert demo1_reach 5 (by decide) (by decide) (by decide) (by decide) (by decide)
    (by intro k hk; interval_cases k; decide)

theorem lastLoc_append (a b : List (Nat × Nat)) :
    ∀ l : Loc, lastLoc l (a ++ b) = lastLoc (lastLoc l a) b := by
  induction a with
  | nil => intro l; rfl
  | cons p a ih => intro l; exact ih (.node p.1)

/-- Insert into a bucket without a free head slot, on a state that satisfies
the invariant: the entry is stored behind the last entry of the chain off head
slot `hash mod BKT_SIZE`, whose pair was (0, `NULL`) and becomes (`hash`, `he`). -/
theorem insert_full_spec {s : State} {L : List (Nat × Nat)} {c : Nat → Nat → List (Nat × Nat)}
    (hI : Inv s L c) {he : Nat} (hash : Nat) (h0 : he ≠ 0) (hev : he % 2 = 0)
    (hn : he ∉ L.map Prod.fst) (hb : s.nbkts ≠ 0)
    (hfull : ∀ i, i < BKT_SIZE → (s.buckets (bucketIndex s hash) i).next ≠ 0) :
    c (bucketIndex s hash) (hash % BKT_SIZE) ≠ [] ∧
    (∃ q, lastLoc (.head (bucketIndex s hash) (hash % BKT_SIZE))
      (c (bucketIndex s hash) (hash % BKT_SIZE)) = .node q ∧ q ≠ he ∧ s.mem q = ⟨0, 0⟩) ∧
    (∀ fuel, (c (bucketIndex s hash) (hash % BKT_SIZE)).length + 1 ≤ fuel →
      p64_hashtable_insert fuel s he hash =
        .done (account ((s.store (.node he) ⟨0, 0⟩).store
          (lastLoc (.head (bucketIndex s hash) (hash % BKT_SIZE))
            (c (bucketIndex s hash) (hash % BKT_SIZE))) ⟨hash, he⟩) (-1))) ∧
    Inv (account ((s.store (.node he) ⟨0, 0⟩).store
          (lastLoc (.head (bucketIndex s hash) (hash % BKT_SIZE))
            (c (bucketIndex s hash) (hash % BKT_SIZE))) ⟨hash, he⟩) (-1))
      ((he, hash) :: L)
      (fun b i => if b = bucketIndex s hash ∧ i = hash % BKT_SIZE
        then c (bucketIndex s hash) (hash % BKT_SIZE) ++ [(he, hash)] else c b i) := by
  have hj : hash % BKT_SIZE < BKT_SIZE := Nat.mod_lt _ (by decide)
  have hne : ∀ i, i < BKT_SIZE → c (bucketIndex s hash) i ≠ [] := by
    intro i hi hci
    apply hfull i hi
    have := (IsChain_next_zero_iff (hI.chain (bucketIndex s hash) i)).mpr hci
    simpa [load_head] using this
  obtain ⟨j, N, hj1, hcase, hrun⟩ := insert_spec hI hash h0 hn hb
  rcases hcase with ⟨hnil, _⟩ | ⟨hjeq, hN, _⟩
  · exact absurd hnil (hne j hj1)
  · subst hjeq
    refine ⟨hne _ hj, ?_, ?_, Inv_insert_at hI hash h0 hev hn hb hj (Or.inr rfl)⟩
    · cases hc : c (bucketIndex s hash) (hash % BKT_SIZE) with
      | nil => exact absurd hc (hne _ hj)
      | cons p rest =>
        obtain ⟨q, hq, hl⟩ := lastLoc_cons_mem rest
          (.head (bucketIndex s hash) (hash % BKT_SIZE)) p
        have hqc : q ∈ c (bucketIndex s hash) (hash % BKT_SIZE) := by rw [hc]; exact hq
        refine ⟨q.1, hl, ?_, ?_⟩
        · intro hqe
          exact hn (hqe ▸ List.mem_map_of_mem Prod.fst (hI.sound _ _ q hqc))
        · -- the last entry of a chain holds the empty pair
          obtain ⟨pre, post, hsplit⟩ := List.append_of_mem hqc
          have hch := hI.chain (bucketIndex s hash) (hash % BKT_SIZE)
          have hlast : lastLoc (.head (bucketIndex s hash) (hash % BKT_SIZE))
              (c (bucketIndex s hash) (hash % BKT_SIZE)) = .node q.1 := by rw [hc]; exact hl
          rw [hsplit] at hch hlast
          have hsuf := IsChain_suffix pre _ hch
          cases post with
          | nil => exact hsuf
          | cons r post =>
            exfalso
            rw [lastLoc_append] at hlast
            obtain ⟨t, ht, hlt⟩ := lastLoc_cons_mem post (.node q.1) r
            have hlast2 : lastLoc (lastLoc (.head (bucketIndex s hash) (hash % BKT_SIZE)) pre)
                (q :: r :: post) = lastLoc (.node q.1) (r :: post) := rfl
            rw [hlast2, hlt] at hlast
            have hnd := hI.nodup (bucketIndex s hash) (hash % BKT_SIZE)
            rw [hsplit, List.map_append, List.map_cons] at hnd
            have h2 := (List.nodup_cons.mp (List.nodup_append.mp hnd).2.1).1
            apply h2
            have : t.1 = q.1 := by simpa using hlast
            rw [← this]
            exact List.mem_map_of_mem Prod.fst ht
    · intro fuel hf
      rw [hrun fuel, if_pos (by omega)]

/-- C14 (overflow chaining): on every reachable state in which all head slots
of the bucket of `hash` have a non-null `next`, `p64_hashtable_insert` of an
entry that is not linked returns and links the entry as the last node of the
chain `c` off head slot `hash mod BKT_SIZE` of that bucket: the previous tail
now holds (`hash`, `he`), the chain is `c` followed by `he`, no head slot of
any bucket changes and every other chain stays as it was. -/
theorem C14_overflow_chaining {s : State} {L : List (Nat × Nat)} (hR : Reach s L) {he : Nat}
    (hash : Nat) (h0 : he ≠ 0) (hev : he % 2 = 0) (hn : he ∉ L.map Prod.fst)
    (hb : s.nbkts ≠ 0)
    (hfull : ∀ i, i < BKT_SIZE → (s.buckets (bucketIndex s hash) i).next ≠ 0) :
    ∃ c s1, c ≠ [] ∧ IsChain s (.head (bucketIndex s hash) (hash % BKT_SIZE)) c ∧
      (∀ fuel, c.length + 1 ≤ fuel → p64_hashtable_insert fuel s he hash = .done s1) ∧
      IsChain s1 (.head (bucketIndex s hash) (hash % BKT_SIZE)) (c ++ [(he, hash)]) ∧
      s1.load (lastLoc (.head (bucketIndex s hash) (hash % BKT_SIZE)) c) = ⟨hash, he⟩ ∧
      s1.mem he = ⟨0, 0⟩ ∧
      (∀ b1 i1, s1.buckets b1 i1 = s.buckets b1 i1) ∧
      (∀ b1 i1 d, ¬(b1 = bucketIndex s hash ∧ i1 = hash % BKT_SIZE) →
        IsChain s (.head b1 i1) d → IsChain s1 (.head b1 i1) d) := by
  obtain ⟨c, hI⟩ := hR.inv
  obtain ⟨hne, ⟨q, hq, hqe, _⟩, hrun, hI1⟩ := insert_full_spec hI hash h0 hev hn hb hfull
  refine ⟨c (bucketIndex s hash) (hash % BKT_SIZE), _, hne, hI.chain _ _, hrun, ?_, ?_, ?_,
    ?_, ?_⟩
  · have := hI1.chain (bucketIndex s hash) (hash % BKT_SIZE)
    simpa using this
  · simp
  · rw [hq]
    simp [State.store, Ne.symm hqe]
  · intro b1 i1
    rw [hq]
    simp [State.store]
  · intro b1 i1 d hne1 hd
    have := hI1.chain b1 i1
    simp only [hne1, if_false] at this
    rw [IsChain_unique hd (hI.chain b1 i1)]
    exact this

theorem C14_overflow_chaining_witness :
    ∃ c s1, c ≠ [] ∧ IsChain demo5 (.head (bucketIndex demo5 5) (5 % BKT_SIZE)) c ∧
      (∀ fuel, c.length + 1 ≤ fuel → p64_hashtable_insert fuel demo5 96 5 = .done s1) ∧
      IsChain s1 (.head (bucketIndex demo5 5) (5 % BKT_SIZE)) (c ++ [(96, 5)]) ∧
      s1.load (lastLoc (.head (bucketIndex demo5 5) (5 % BKT_SIZE)) c) = ⟨5, 96⟩ ∧
      s1.mem 96 = ⟨0, 0⟩ ∧
      (∀ b1 i1, s1.buckets b1 i1 = demo5.buckets b1 i1) ∧
      (∀ b1 i1 d, ¬(b1 = bucketIndex demo5 5 ∧ i1 = 5 % BKT_SIZE) →
        IsChain demo5 (.head b1 i1) d → IsChain s1 (.head b1 i1) d) :=
  C14_overflow_chaining demo5_reach 5 (by decide) (by decide) (by decide) (by decide)
    (by intro i hi; unfold BKT_SIZE at hi; interval_cases i <;> decide)

/-! ## The pair written by `insert_node` -/

theorem demo4_reach : Reach demo4 [(64, 5), (48, 5), (32, 5), (16, 5)] :=
  Reach.insert 8 64 5
    (Reach.insert 8 48 5
      (Reach.insert 8 32 5 demo1_reach (by decide) (by decide) (by decide) rfl)
      (by decide) (by decide) (by decide) rfl)
    (by decide) (by decide) (by decide) rfl

/-- C15, as the claim states it, fails: in the example table with four taken
head slots entry 32 is the tail of the chain off head slot 1 and holds
(0, `NULL`); `insert(80, 5)` appends 80 behind it and leaves it as (5, 80), so
the stored hash of the parent changes from 0 to 5. -/
theorem C15_counterexample :
    Reach demo4 [(64, 5), (48, 5), (32, 5), (16, 5)] ∧ demo4.buckets 0 1 = ⟨5, 32⟩ ∧
      demo4.mem 32 = ⟨0, 0⟩ ∧ p64_hashtable_insert 8 demo4 80 5 = .done demo5 ∧
      demo5.mem 32 = ⟨5, 80⟩ ∧ (demo4.mem 32).hash ≠ (demo5.mem 32).hash :=
  ⟨demo4_reach, rfl, rfl, rfl, rfl, by decide⟩

/-- C15 (amended): the pair-CAS of `insert_node` expects (0, `NULL`) and writes
(`hash`, `he`) whatever the parent holds: a parent holding (0, `NULL`) ends
with the hash argument of the insert as its hash, and a parent with another
pair is left as it is.  So when `p64_hashtable_insert` on a reachable state
appends `he` behind the tail `P` of the chain off head slot
`hash mod BKT_SIZE`, `P` holds (0, `NULL`) before the call and (`hash`, `he`)
after it. -/
theorem C15_list_insert_parent_hash_amended {s : State} {L : List (Nat × Nat)}
    (hR : Reach s L) {he : Nat} (hash : Nat) (h0 : he ≠ 0) (hev : he % 2 = 0)
    (hn : he ∉ L.map Prod.fst) (hb : s.nbkts ≠ 0)
    (hfull : ∀ i, i < BKT_SIZE → (s.buckets (bucketIndex s hash) i).next ≠ 0) :
    (∀ (t : State) (prnt : Loc), t.mem he = ⟨0, 0⟩ →
      (t.load prnt = ⟨0, 0⟩ →
        insert_node t prnt he hash = .done (t.store prnt ⟨hash, he⟩, 0)) ∧
      (t.load prnt ≠ ⟨0, 0⟩ → insert_node t prnt he hash = .done (t, (t.load prnt).next))) ∧
    ∃ c P s1, IsChain s (.head (bucketIndex s hash) (hash % BKT_SIZE)) c ∧
      lastLoc (.head (bucketIndex s hash) (hash % BKT_SIZE)) c = .node P ∧
      (∀ fuel, c.length + 1 ≤ fuel → p64_hashtable_insert fuel s he hash = .done s1) ∧
      s.mem P = ⟨0, 0⟩ ∧ s1.mem P = ⟨hash, he⟩ := by
  refine ⟨?_, ?_⟩
  · intro t prnt hm
    constructor
    · intro hp
      exact insert_node_empty hash hm hp
    · intro hp
      simp [insert_node, hm, hp]
  · obtain ⟨c, hI⟩ := hR.inv
    obtain ⟨_, ⟨q, hq, hqe, hq0⟩, hrun, _⟩ := insert_full_spec hI hash h0 hev hn hb hfull
    refine ⟨c (bucketIndex s hash) (hash % BKT_SIZE), q, _, hI.chain _ _, hq, hrun, hq0, ?_⟩
    rw [hq]
    simp [State.store]

theorem C15_list_insert_parent_hash_amended_witness :
    (∀ (t : State) (prnt : Loc), t.mem 80 = ⟨0, 0⟩ →
      (t.load prnt = ⟨0, 0⟩ →
        insert_node t prnt 80 5 = .done (t.store prnt ⟨5, 80⟩, 0)) ∧
      (t.load prnt ≠ ⟨0, 0⟩ → insert_node t prnt 80 5 = .done (t, (t.load prnt).next))) ∧
    ∃ c P s1, IsChain demo4 (.head (bucketIndex demo4 5) (5 % BKT_SIZE)) c ∧
      lastLoc (.head (bucketIndex demo4 5) (5 % BKT_SIZE)) c = .node P ∧
      (∀ fuel, c.length + 1 ≤ fuel → p64_hashtable_insert fuel demo4 80 5 = .done s1) ∧
      demo4.mem P = ⟨0, 0⟩ ∧ s1.mem P = ⟨5, 80⟩ :=
  C15_list_insert_parent_hash_amended demo4_reach 5 (by decide) (by decide) (by decide)
    (by decide) (by intro i hi; unfold BKT_SIZE at hi; interval_cases i <;> decide)

/-! ## The two-phase unlink -/

theorem SET_MARK_odd {p : Nat} (h : p % 2 = 1) : SET_MARK p = p := by
  unfold SET_MARK MARK_REMOVE
  obtain ⟨k, rfl⟩ : ∃ k, p = 2 * k + 1 := ⟨p / 2, by omega⟩
  have h1 : 2 ^ 1 * k + 1 = 2 ^ 1 * k ||| 1 := Nat.mul_add_lt_is_or (by decide) k
  have h2 : 2 * k + 1 = 2 * k ||| 1 := by simpa using h1
  rw [h2, Nat.lor_assoc]
  rfl

theorem REM_SET_MARK (p : Nat) : REM_MARK (SET_MARK p) = REM_MARK p := by
  rcases Nat.mod_two_eq_zero_or_one p with h | h
  · rw [REM_SET_MARK_even h, REM_MARK_even h]
  · rw [SET_MARK_odd h]

theorem HAS_MARK_SET_MARK (p : Nat) : HAS_MARK (SET_MARK p) = true := by
  rw [HAS_MARK_eq, SET_MARK_mod]; rfl

theorem SET_MARK_idem (p : Nat) : SET_MARK (SET_MARK p) = SET_MARK p :=
  SET_MARK_odd (SET_MARK_mod p)

/-- Run of `remove_node` when the parent holds (`hash`, `this`) with the mark
clear: the CAS succeeds, whether or not `this` is marked already. -/
theorem remove_node_success {s : State} {prnt : Loc} {this hash : Nat} (removed : Int)
    (h0 : this ≠ 0) (hev : this % 2 = 0) (hp : s.load prnt = ⟨hash, this⟩)
    (hne : prnt ≠ .node this) :
    remove_node s prnt this hash removed =
      .done ((remove_node_mark s this).store prnt
        ⟨(s.mem this).hash, REM_MARK (s.mem this).next⟩, true, removed + 1) := by
  have h1 : (remove_node_mark s this).load prnt = ⟨hash, this⟩ := by
    rw [load_mark_ne s hne]; exact hp
  simp [remove_node, REM_MARK_even hev, h0, h1, mem_mark_same, REM_SET_MARK]

/-- C16 (two-phase unlink, success case): for every state, every parent `P`
other than the target itself and every non-null target `T` with `P` holding
(`hash`, `T`), mark clear, `remove_node(P, T, hash, &removed)` returns true,
leaves `P` holding the stored hash of `T` and the `next` of `T`, mark stripped,
leaves `T` with its hash and with the REMOVE bit set on its otherwise unchanged
`next`, adds exactly 1 to `removed`, and changes no other head slot or entry,
nor `nbkts` or `nused`. -/
theorem C16_two_phase_unlink (s : State) (prnt : Loc) (this hash : Nat) (removed : Int)
    (h0 : this ≠ 0) (hev : HAS_MARK this = false) (hp : s.load prnt = ⟨hash, this⟩)
    (hne : prnt ≠ .node this) :
    ∃ s1, remove_node s prnt this hash removed = .done (s1, true, removed + 1) ∧
      s1.load prnt = ⟨(s.mem this).hash, REM_MARK (s.mem this).next⟩ ∧
      s1.mem this = ⟨(s.mem this).hash, SET_MARK (s.mem this).next⟩ ∧
      HAS_MARK (s1.mem this).next = true ∧
      REM_MARK (s1.mem this).next = REM_MARK (s.mem this).next ∧
      (∀ l, l ≠ prnt → l ≠ .node this → s1.load l = s.load l) ∧
      s1.nbkts = s.nbkts ∧ s1.nused = s.nused := by
  have hev2 : this % 2 = 0 := by
    rw [HAS_MARK_eq] at hev
    have := of_decide_eq_false hev
    omega
  have hmem : ((remove_node_mark s this).store prnt
      ⟨(s.mem this).hash, REM_MARK (s.mem this).next⟩).mem this =
      ⟨(s.mem this).hash, SET_MARK (s.mem this).next⟩ := by
    have h1 := load_store_ne (remove_node_mark s this)
      ⟨(s.mem this).hash, REM_MARK (s.mem this).next⟩ (k := .node this) (l := prnt) hne.symm
    exact h1.trans (mem_mark_same s this)
  refine ⟨_, remove_node_success removed h0 hev2 hp hne, by simp, hmem, ?_, ?_, ?_, by simp,
    by simp⟩
  · rw [hmem]; exact HAS_MARK_SET_MARK _
  · rw [hmem]; exact REM_SET_MARK _
  · intro l hl1 hl2
    rw [load_store_ne _ _ hl1, load_mark_ne s hl2]

theorem C16_two_phase_unlink_witness :
    ∃ s1, remove_node demo5 (.node 32) 80 5 0 = .done (s1, true, 0 + 1) ∧
      s1.load (.node 32) = ⟨(demo5.mem 80).hash, REM_MARK (demo5.mem 80).next⟩ ∧
      s1.mem 80 = ⟨(demo5.mem 80).hash, SET_MARK (demo5.mem 80).next⟩ ∧
      HAS_MARK (s1.mem 80).next = true ∧
      REM_MARK (s1.mem 80).next = REM_MARK (demo5.mem 80).next ∧
      (∀ l, l ≠ .node 32 → l ≠ .node 80 → s1.load l = demo5.load l) ∧
      s1.nbkts = demo5.nbkts ∧ s1.nused = demo5.nused :=
  C16_two_phase_unlink demo5 (.node 32) 80 5 0 (by decide) (by decide) rfl (by decide)

/-! ## Undefined steps and the bucket count -/

theorem remove_node_cases (s : State) (prnt : Loc) (this hash : Nat) (removed : Int)
    (h0 : this ≠ 0) :
    remove_node s prnt this hash removed = .abort ∨
      ∃ s1 b r, remove_node s prnt this hash removed = .done (s1, b, r) ∧
        s1.nbkts = s.nbkts := by
  unfold remove_node
  by_cases h1 : this ≠ REM_MARK this
  · rw [if_pos h1]; exact Or.inl rfl
  · rw [if_neg h1, if_neg h0]
    dsimp only
    split
    · exact Or.inr ⟨_, _, _, rfl, by simp⟩
    · split
      · exact Or.inr ⟨_, _, _, rfl, by simp⟩
      · split
        · exact Or.inl rfl
        · exact Or.inr ⟨_, _, _, rfl, by simp⟩

theorem insert_node_cases (s : State) (prnt : Loc) (he hash : Nat) :
    insert_node s prnt he hash = .abort ∨
      ∃ s1 r, insert_node s prnt he hash = .done (s1, r) ∧ s1.nbkts = s.nbkts := by
  unfold insert_node
  split
  · exact Or.inl rfl
  · split
    · exact Or.inl rfl
    · simp only []
      split
      · exact Or.inr ⟨_, _, rfl, by simp⟩
      · exact Or.inr ⟨_, _, rfl, rfl⟩

/-- The loop of `list_insert` never executes an undefined step and never
writes `nbkts`, on any state. -/
theorem list_insert_defined (org : Loc) (he hash : Nat) :
    ∀ (fuel : Nat) (s : State) (prnt : Loc) (removed : Int),
      list_insert org he hash fuel s prnt removed ≠ .undef ∧
      ∀ s1 r, list_insert org he hash fuel s prnt removed = .done (s1, r) →
        s1.nbkts = s.nbkts := by
  intro fuel
  induction fuel with
  | zero =>
    intro s prnt removed
    exact ⟨fun h => (by cases h), fun s1 r h => by cases h⟩
  | succ fuel ih =>
    intro s prnt removed
    rw [list_insert]
    by_cases h1 : REM_MARK (hp_acquire s prnt) = 0
    · rw [if_pos h1]
      rcases insert_node_cases s prnt he hash with h | ⟨s1, old, h, hn⟩
      · rw [h]
        exact ⟨fun h => (by cases h), fun s1 r h => by cases h⟩
      · rw [h]
        dsimp only
        by_cases h2 : old = 0
        · rw [if_pos h2]
          refine ⟨fun h => (by cases h), fun s2 r h => ?_⟩
          injection h with h
          injection h with h3 _
          rw [← h3]; exact hn
        · rw [if_neg h2]
          split
          · have := ih s1 org removed
            exact ⟨this.1, fun s2 r h => (this.2 s2 r h).trans hn⟩
          · have := ih s1 prnt removed
            exact ⟨this.1, fun s2 r h => (this.2 s2 r h).trans hn⟩
    · rw [if_neg h1]
      split
      · exact ⟨fun h => (by cases h), fun s1 r h => by cases h⟩
      · split
        · rcases remove_node_cases s prnt (REM_MARK (hp_acquire s prnt)) (s.load prnt).hash
            removed h1 with h | ⟨s1, b, r1, h, hn⟩
          · rw [h]
            exact ⟨fun h => (by cases h), fun s1 r h => by cases h⟩
          · rw [h]
            cases b with
            | true =>
              have := ih s1 prnt r1
              exact ⟨this.1, fun s2 r h => (this.2 s2 r h).trans hn⟩
            | false =>
              have := ih s1 org r1
              exact ⟨this.1, fun s2 r h => (this.2 s2 r h).trans hn⟩
        · exact ih s _ removed

/-- The loop of `list_remove` never executes an undefined step and never
writes `nbkts`, on any state. -/
theorem list_remove_defined (org : Loc) (he hash : Nat) :
    ∀ (fuel : Nat) (s : State) (prnt : Loc) (removed : Int),
      list_remove org he hash fuel s prnt removed ≠ .undef ∧
      ∀ s1 b r, list_remove org he hash fuel s prnt removed = .done (s1, b, r) →
        s1.nbkts = s.nbkts := by
  intro fuel
  induction fuel with
  | zero =>
    intro s prnt removed
    exact ⟨fun h => (by cases h), fun s1 b r h => by cases h⟩
  | succ fuel ih =>
    intro s prnt removed
    rw [list_remove]
    by_cases h1 : REM_MARK (hp_acquire s prnt) = 0
    · rw [if_pos h1]
      refine ⟨fun h => (by cases h), fun s1 b r h => ?_⟩
      injection h with h
      injection h with h3 _
      rw [← h3]
    · rw [if_neg h1]
      split
      · rcases remove_node_cases s prnt (REM_MARK (hp_acquire s prnt)) hash
          removed h1 with h | ⟨s1, b, r1, h, hn⟩
        · rw [h]
          exact ⟨fun h => (by cases h), fun s1 b r h => by cases h⟩
        · rw [h]
          cases b with
          | true =>
            refine ⟨fun h => (by cases h), fun s2 b r h => ?_⟩
            injection h with h
            injection h with h3 _
            rw [← h3]; exact hn
          | false =>
            have := ih s1 org r1
            exact ⟨this.1, fun s2 b r h => (this.2 s2 b r h).trans hn⟩
      · split
        · rcases remove_node_cases s prnt (REM_MARK (hp_acquire s prnt)) (s.load prnt).hash
            removed h1 with h | ⟨s1, b, r1, h, hn⟩
          · rw [h]
            exact ⟨fun h => (by cases h), fun s1 b r h => by cases h⟩
          · rw [h]
            cases b with
            | true =>
              have := ih s1 prnt r1
              exact ⟨this.1, fun s2 b r h => (this.2 s2 b r h).trans hn⟩
            | false =>
              have := ih s1 org r1
              exact ⟨this.1, fun s2 b r h => (this.2 s2 b r h).trans hn⟩
        · exact ih s _ removed

theorem bucket_lookup_loop_ne_undef (s : State) (bkt : Nat) (cf : Nat → Nat → Int) (key : Nat) :
    ∀ mask : List Nat, bucket_lookup_loop s bkt cf key mask ≠ .undef ∧
      bucket_lookup_loop s bkt cf key mask ≠ .nofuel := by
  intro mask
  induction mask with
  | nil => exact ⟨fun h => (by cases h), fun h => by cases h⟩
  | cons i mask ih =>
    rw [bucket_lookup_loop]
    split
    · exact ⟨fun h => (by cases h), fun h => by cases h⟩
    · split
      · exact ⟨fun h => (by cases h), fun h => by cases h⟩
      · exact ih

theorem list_lookup_ne_undef (s : State) (cf : Nat → Nat → Int) (key : Nat) :
    ∀ (fuel : Nat) (prnt : Loc), list_lookup s cf key fuel prnt ≠ .undef := by
  intro fuel
  induction fuel with
  | zero => intro prnt h; cases h
  | succ fuel ih =>
    intro prnt
    rw [list_lookup]
    split
    · intro h; cases h
    · split
      · intro h; cases h
      · exact ih _

theorem bucket_insert_loop_cases (bkt he hash : Nat) :
    ∀ (mask : List Nat) (s : State), bucket_insert_loop bkt he hash mask s = .abort ∨
      ∃ s1 b, bucket_insert_loop bkt he hash mask s = .done (s1, b) ∧ s1.nbkts = s.nbkts := by
  intro mask
  induction mask with
  | nil => intro s; exact Or.inr ⟨s, false, rfl, rfl⟩
  | cons i mask ih =>
    intro s
    rw [bucket_insert_loop]
    rcases insert_node_cases s (.head bkt i) he hash with h | ⟨s1, r, h, hn⟩
    · rw [h]; exact Or.inl rfl
    · rw [h]
      dsimp only
      split
      · exact Or.inr ⟨s1, true, rfl, hn⟩
      · rcases ih s1 with h2 | ⟨s2, b, h2, hn2⟩
        · exact Or.inl h2
        · exact Or.inr ⟨s2, b, h2, hn2.trans hn⟩

/-- Lookup executes an undefined step exactly on a table without buckets. -/
theorem lookup_undef_iff (fuel : Nat) (s : State) (cf : Nat → Nat → Int) (key hash : Nat) :
    p64_hashtable_lookup fuel s cf key hash = .undef ↔ s.nbkts = 0 := by
  constructor
  · intro h
    by_contra hb
    unfold p64_hashtable_lookup at h
    rw [if_neg hb] at h
    simp only [] at h
    have h1 := bucket_lookup_loop_ne_undef s (hash / BKT_SIZE % s.nbkts) cf key
      ((List.range BKT_SIZE).filter
        (fun i => (s.buckets (hash / BKT_SIZE % s.nbkts) i).hash = hash))
    unfold bucket_lookup at h
    split at h
    · split at h
      · cases h
      · exact list_lookup_ne_undef s cf key fuel _ h
    · cases h
    · rename_i heq
      exact h1.1 heq
    · cases h
  · intro hb
    simp [p64_hashtable_lookup, hb]

/-- Insert of a non-null entry executes an undefined step exactly on a table
without buckets, and a call that returns leaves `nbkts` as it was. -/
theorem insert_undef_iff (fuel : Nat) (s : State) {he : Nat} (hash : Nat) (h0 : he ≠ 0) :
    (p64_hashtable_insert fuel s he hash = .undef ↔ s.nbkts = 0) ∧
      ∀ s1, p64_hashtable_insert fuel s he hash = .done s1 → s1.nbkts = s.nbkts := by
  by_cases hb : s.nbkts = 0
  · simp [p64_hashtable_insert, hb]
  · unfold p64_hashtable_insert
    rw [if_neg hb, if_neg h0]
    dsimp only
    unfold bucket_insert
    rcases bucket_insert_loop_cases (hash / BKT_SIZE % s.nbkts) he hash
      ((List.range BKT_SIZE).filter (fun i =>
        ((s.store (.node he) ⟨0, 0⟩).buckets (hash / BKT_SIZE % s.nbkts) i).next = 0))
      (s.store (.node he) ⟨0, 0⟩) with h | ⟨s1, b, h, hn⟩
    · rw [h]
      simp [hb]
    · rw [h]
      cases b with
      | true =>
        simp only [hb, iff_false]
        refine ⟨fun h => (by cases h), fun s2 h => ?_⟩
        injection h with h
        rw [← h]
        simpa using hn
      | false =>
        dsimp only
        have hl := list_insert_defined (.head (hash / BKT_SIZE % s.nbkts) (hash % BKT_SIZE))
          he hash fuel s1 (.head (hash / BKT_SIZE % s.nbkts) (hash % BKT_SIZE)) (-1)
        split
        · rename_i s2 r heq
          simp only [hb, iff_false]
          refine ⟨fun h => (by cases h), fun s3 h => ?_⟩
          injection h with h
          rw [← h]
          have := hl.2 s2 r heq
          simpa using this.trans (by simpa using hn)
        · simp [hb]
        · rename_i heq
          exact absurd heq hl.1
        · simp [hb]

/-- Remove of a non-null entry executes an undefined step exactly on a table
without buckets, and a call that returns leaves `nbkts` as it was. -/
theorem remove_undef_iff (fuel : Nat) (s : State) {he : Nat} (hash : Nat) (h0 : he ≠ 0) :
    (p64_hashtable_remove fuel s he hash = .undef ↔ s.nbkts = 0) ∧
      ∀ s1 r, p64_hashtable_remove fuel s he hash = .done (s1, r) → s1.nbkts = s.nbkts := by
  by_cases hb : s.nbkts = 0
  · simp [p64_hashtable_remove, hb]
  · unfold p64_hashtable_remove
    rw [if_neg hb]
    dsimp only
    have hbr : bucket_remove s (hash / BKT_SIZE % s.nbkts) he hash 0 = .abort ∨
        (bucket_remove s (hash / BKT_SIZE % s.nbkts) he hash 0 = .done (s, false, 0)) ∨
        ∃ s1 r, bucket_remove s (hash / BKT_SIZE % s.nbkts) he hash 0 = .done (s1, true, r) ∧
          s1.nbkts = s.nbkts := by
      unfold bucket_remove
      split
      · exact Or.inr (Or.inl rfl)
      · rename_i i mask _
        rcases remove_node_cases s (.head (hash / BKT_SIZE % s.nbkts) i) he hash 0 h0 with
          h | ⟨s1, b, r, h, hn⟩
        · rw [h]; exact Or.inl rfl
        · rw [h]; exact Or.inr (Or.inr ⟨s1, r, rfl, hn⟩)
    rcases hbr with h | h | ⟨s1, r, h, hn⟩
    · rw [h]; simp [hb]
    · rw [h]
      dsimp only
      have hl := list_remove_defined (.head (hash / BKT_SIZE % s.nbkts) (hash % BKT_SIZE))
        he hash fuel s (.head (hash / BKT_SIZE % s.nbkts) (hash % BKT_SIZE)) 0
      split
      · rename_i s2 b r heq
        simp only [hb, iff_false]
        refine ⟨fun h => (by cases h), fun s3 r3 h => ?_⟩
        injection h with h
        injection h with h _
        rw [← h]
        simpa using hl.2 s2 b r heq
      · simp [hb]
      · rename_i heq
        exact absurd heq hl.1
      · simp [hb]
    · rw [h]
      simp only [hb, iff_false]
      refine ⟨fun h => (by cases h), fun s3 r3 h => ?_⟩
      injection h with h
      injection h with h _
      rw [← h]
      simpa using hn

/-- C19 (bucket addressing): for a table whose bucket count is the one
`p64_hashtable_alloc(nentries)` computed: when `1 ≤ nentries ≤ 2^32 - 4` there
is at least one bucket, the bucket index `(hash / BKT_SIZE) mod nbkts` is below
`nbkts`, the overflow root `hash mod BKT_SIZE` is below `BKT_SIZE`, and lookup,
insert and remove (of a non-null entry) execute no undefined step; when
`nentries` is 0 or above `2^32 - 4` there is no bucket and the three
operations take the index modulo zero. -/
theorem C19_bucket_addressing (nentries : Nat) (mem : Nat → p64_hashentry) (s : State)
    (hs : s.nbkts = (p64_hashtable_alloc nentries mem).nbkts) (hash : Nat) :
    (1 ≤ nentries → nentries ≤ 2 ^ 32 - 4 →
      1 ≤ s.nbkts ∧ bucketIndex s hash < s.nbkts ∧ hash % BKT_SIZE < BKT_SIZE ∧
      (∀ fuel cf key, p64_hashtable_lookup fuel s cf key hash ≠ .undef) ∧
      (∀ fuel he, he ≠ 0 → p64_hashtable_insert fuel s he hash ≠ .undef) ∧
      (∀ fuel he, he ≠ 0 → p64_hashtable_remove fuel s he hash ≠ .undef)) ∧
    (nentries = 0 ∨ (2 ^ 32 - 4 < nentries ∧ nentries < 2 ^ 32) →
      s.nbkts = 0 ∧
      (∀ fuel cf key, p64_hashtable_lookup fuel s cf key hash = .undef) ∧
      (∀ fuel he, p64_hashtable_insert fuel s he hash = .undef) ∧
      (∀ fuel he, p64_hashtable_remove fuel s he hash = .undef)) := by
  simp only [p64_hashtable_alloc, BKT_SIZE] at hs
  constructor
  · intro h1 h2
    have hb : 1 ≤ s.nbkts := by omega
    have hb0 : s.nbkts ≠ 0 := by omega
    refine ⟨hb, Nat.mod_lt _ (by omega), Nat.mod_lt _ (by decide), ?_, ?_, ?_⟩
    · intro fuel cf key h
      exact hb0 ((lookup_undef_iff fuel s cf key hash).mp h)
    · intro fuel he h0 h
      exact hb0 ((insert_undef_iff fuel s hash h0).1.mp h)
    · intro fuel he h0 h
      exact hb0 ((remove_undef_iff fuel s hash h0).1.mp h)
  · intro h
    have hb : s.nbkts = 0 := by omega
    refine ⟨hb, ?_, ?_, ?_⟩
    · intro fuel cf key
      simp [p64_hashtable_lookup, hb]
    · intro fuel he
      simp [p64_hashtable_insert, hb]
    · intro fuel he
      simp [p64_hashtable_remove, hb]

theorem C19_bucket_addressing_witness :
    (1 ≤ 4 → 4 ≤ 2 ^ 32 - 4 →
      1 ≤ demo5.nbkts ∧ bucketIndex demo5 5 < demo5.nbkts ∧ 5 % BKT_SIZE < BKT_SIZE ∧
      (∀ fuel cf key, p64_hashtable_lookup fuel demo5 cf key 5 ≠ .undef) ∧
      (∀ fuel he, he ≠ 0 → p64_hashtable_insert fuel demo5 he 5 ≠ .undef) ∧
      (∀ fuel he, he ≠ 0 → p64_hashtable_remove fuel demo5 he 5 ≠ .undef)) ∧
    (4 = 0 ∨ (2 ^ 32 - 4 < 4 ∧ 4 < 2 ^ 32) →
      demo5.nbkts = 0 ∧
      (∀ fuel cf key, p64_hashtable_lookup fuel demo5 cf key 5 = .undef) ∧
      (∀ fuel he, p64_hashtable_insert fuel demo5 he 5 = .undef) ∧
      (∀ fuel he, p64_hashtable_remove fuel demo5 he 5 = .undef)) :=
  C19_bucket_addressing 4 demoMem demo5 rfl 5

/-! ## Bucket remove -/

/-- C18, as the claim states it, fails: in the example table after
`insert(16, 5)` head purity holds and entry 16 is the unmarked `next` of head
slot 0, yet with the hash argument 6, which selects the same bucket,
`remove_node` fails its CAS on the stored hash 5 and ends in the assertion
`old.he.next == SET_MARK(this)`, and so does `bucket_remove`. -/
theorem C18_counterexample :
    HeadPure demo1 ∧ demo1.buckets 0 0 = ⟨5, 16⟩ ∧ HAS_MARK 16 = false ∧
      bucketIndex demo1 6 = 0 ∧
      remove_node demo1 (.head 0 0) 16 6 0 = .abort ∧
      bucket_remove demo1 (bucketIndex demo1 6) 16 6 0 = .abort :=
  ⟨Exists.elim demo1_reach.inv (fun _ hI => hI.headPure), rfl, by decide, by decide, rfl, rfl⟩

/-- C18 (amended): for every state with head purity, every non-null entry `e`
that is the `next` of head slot `i` of bucket `b`, `i` being the lowest such
slot, and the hash argument equal to the hash stored in that head slot, the
unlink that `bucket_remove` invokes returns true by a successful CAS, without
reaching the assertion, `bucket_remove` returns true, and the head slot then
holds the stored hash of `e` and the `next` of `e` with the mark stripped, so
it no longer points to `e` unless `e` pointed to itself. -/
theorem C18_bucket_remove_amended (s : State) (b e hash : Nat) (removed : Int) {i : Nat}
    (hpure : HeadPure s) (hi : i < BKT_SIZE) (h0 : e ≠ 0)
    (hnext : (s.buckets b i).next = e) (hhash : (s.buckets b i).hash = hash)
    (hlow : ∀ k, k < i → (s.buckets b k).next ≠ e) :
    ∃ s1, remove_node s (.head b i) e hash removed = .done (s1, true, removed + 1) ∧
      bucket_remove s b e hash removed = .done (s1, true, removed + 1) ∧
      s1.buckets b i = ⟨(s.mem e).hash, REM_MARK (s.mem e).next⟩ ∧
      (REM_MARK (s.mem e).next ≠ e → (s1.buckets b i).next ≠ e) := by
  have hev : e % 2 = 0 := by
    have := hpure b i
    rw [hnext, HAS_MARK_eq] at this
    have := of_decide_eq_false this
    omega
  have hp : s.load (.head b i) = ⟨hash, e⟩ := by
    rw [load_head, ← hnext, ← hhash]
  have hrn := remove_node_success removed h0 hev hp (by simp)
  obtain ⟨rest, hmask⟩ := filter_range_lowest
    (fun k => decide ((s.buckets b k).next = e)) hi (by simpa using hnext)
    (by intro k hk; simpa using hlow k hk)
  refine ⟨_, hrn, ?_, ?_, ?_⟩
  · simp only [bucket_remove, hmask, hrn]
  · simp [State.store]
  · intro hself
    simpa [State.store] using hself

theorem C18_bucket_remove_amended_witness :
    ∃ s1, remove_node demo1 (.head 0 0) 16 5 0 = .done (s1, true, 0 + 1) ∧
      bucket_remove demo1 0 16 5 0 = .done (s1, true, 0 + 1) ∧
      s1.buckets 0 0 = ⟨(demo1.mem 16).hash, REM_MARK (demo1.mem 16).next⟩ ∧
      (REM_MARK (demo1.mem 16).next ≠ 16 → (s1.buckets 0 0).next ≠ 16) :=
  C18_bucket_remove_amended demo1 0 16 5 0
    (Exists.elim demo1_reach.inv (fun _ hI => hI.headPure)) (by decide) (by decide) rfl rfl
    (by intro k hk; omega)

/-! ## Empty slots -/

theorem Inv.chain_at {s : State} {L : List (Nat × Nat)} {c : Nat → Nat → List (Nat × Nat)}
    (hI : Inv s L c) {P : Loc}
    (hP : (∃ b i, P = .head b i) ∨ (∃ e, Linked s e ∧ P = .node e)) :
    ∃ d, IsChain s P d := by
  rcases hP with ⟨b, i, rfl⟩ | ⟨e, hl, rfl⟩
  · exact ⟨_, hI.chain b i⟩
  · rw [hI.linked_iff e] at hl
    obtain ⟨p, hp, hpe⟩ := List.mem_map.mp hl
    obtain ⟨b, i, hbi⟩ := hI.complete p hp
    obtain ⟨pre, post, hc⟩ := List.append_of_mem hbi
    have hch := hI.chain b i
    rw [hc] at hch
    have hsuf := IsChain_suffix pre _ hch
    rw [hpe] at hsuf
    exact ⟨post, hsuf⟩

/-- C20 (empty-slot invariant): on every state reached by a sequential run,
every head slot and every linked entry whose `next`, mark stripped, is `NULL`
holds the pair (0, `NULL`).  Hence `insert_node`, run on such a parent after
insert has reset the entry, either finds (0, `NULL`), links the entry by its
CAS and returns `NULL`, or finds a non-null `next`, changes nothing and returns
that pointer: it returns `NULL` exactly when it linked the entry.  On a parent
holding a non-zero hash with a `NULL` next, which the invariant excludes,
`insert_node` returns `NULL` and links nothing. -/
theorem C20_empty_slot_invariant {s : State} {L : List (Nat × Nat)} (hR : Reach s L) :
    (∀ P, ((∃ b i, P = .head b i) ∨ (∃ e, Linked s e ∧ P = .node e)) →
      REM_MARK (s.load P).next = 0 → (s.load P).hash = 0 ∧ (s.load P).next = 0) ∧
    (∀ he hash P, he ∉ L.map Prod.fst →
      ((∃ b i, P = .head b i) ∨ (∃ e, Linked s e ∧ P = .node e)) →
      ((s.store (.node he) ⟨0, 0⟩).load P = ⟨0, 0⟩ ∧
        insert_node (s.store (.node he) ⟨0, 0⟩) P he hash =
          .done ((s.store (.node he) ⟨0, 0⟩).store P ⟨hash, he⟩, 0)) ∨
      (((s.store (.node he) ⟨0, 0⟩).load P).next ≠ 0 ∧
        insert_node (s.store (.node he) ⟨0, 0⟩) P he hash =
          .done (s.store (.node he) ⟨0, 0⟩, ((s.store (.node he) ⟨0, 0⟩).load P).next))) ∧
    (∀ (t : State) (P : Loc) (he hash h : Nat), t.mem he = ⟨0, 0⟩ → h ≠ 0 →
      t.load P = ⟨h, 0⟩ → insert_node t P he hash = .done (t, 0)) := by
  obtain ⟨c, hI⟩ := hR.inv
  refine ⟨?_, ?_, ?_⟩
  · intro P hP hnull
    obtain ⟨d, hd⟩ := hI.chain_at hP
    cases d with
    | nil =>
      rw [show s.load P = ⟨0, 0⟩ from hd]
      exact ⟨rfl, rfl⟩
    | cons q d =>
      obtain ⟨e, h⟩ := q
      obtain ⟨g1, g2, g3, _⟩ := hd
      rw [g3] at hnull
      simp only at hnull
      rw [REM_MARK_even g2] at hnull
      exact absurd hnull g1
  · intro he hash P hn hP
    obtain ⟨d, hd⟩ := hI.chain_at hP
    have hm0 : (s.store (.node he) ⟨0, 0⟩).mem he = ⟨0, 0⟩ := load_store_same s (.node he) _
    have hload : (s.store (.node he) ⟨0, 0⟩).load P = s.load P := by
      refine load_store_ne s _ ?_
      rcases hP with ⟨b, i, rfl⟩ | ⟨e, hl, rfl⟩
      · simp
      · rw [hI.linked_iff e] at hl
        intro h
        injection h with h
        exact hn (h ▸ hl)
    cases d with
    | nil =>
      left
      have h0 : (s.store (.node he) ⟨0, 0⟩).load P = ⟨0, 0⟩ := by
        rw [hload]; exact hd
      exact ⟨h0, insert_node_empty hash hm0 h0⟩
    | cons q d =>
      right
      obtain ⟨e, h⟩ := q
      obtain ⟨g1, g2, g3, _⟩ := hd
      have h1 : (s.store (.node he) ⟨0, 0⟩).load P = ⟨h, e⟩ := by rw [hload]; exact g3
      refine ⟨by rw [h1]; exact g1, ?_⟩
      have hne : (⟨h, e⟩ : p64_hashentry) ≠ ⟨0, 0⟩ := by
        intro hh
        injection hh with _ hh
        exact g1 hh
      simp [insert_node, hm0, h1, hne]
  · intro t P he hash h hm hh hP
    have hne : (⟨h, 0⟩ : p64_hashentry) ≠ ⟨0, 0⟩ := by
      intro hx
      injection hx with hx _
      exact hh hx
    simp [insert_node, hm, hP, hne]

theorem C20_empty_slot_invariant_witness :
    (∀ P, ((∃ b i, P = .head b i) ∨ (∃ e, Linked demo5 e ∧ P = .node e)) →
      REM_MARK (demo5.load P).next = 0 → (demo5.load P).hash = 0 ∧ (demo5.load P).next = 0) ∧
    (∀ he hash P, he ∉ [(80, 5), (64, 5), (48, 5), (32, 5), (16, 5)].map Prod.fst →
      ((∃ b i, P = .head b i) ∨ (∃ e, Linked demo5 e ∧ P = .node e)) →
      ((demo5.store (.node he) ⟨0, 0⟩).load P = ⟨0, 0⟩ ∧
        insert_node (demo5.store (.node he) ⟨0, 0⟩) P he hash =
          .done ((demo5.store (.node he) ⟨0, 0⟩).store P ⟨hash, he⟩, 0)) ∨
      (((demo5.store (.node he) ⟨0, 0⟩).load P).next ≠ 0 ∧
        insert_node (demo5.store (.node he) ⟨0, 0⟩) P he hash =
          .done (demo5.store (.node he) ⟨0, 0⟩,
            ((demo5.store (.node he) ⟨0, 0⟩).load P).next))) ∧
    (∀ (t : State) (P : Loc) (he hash h : Nat), t.mem he = ⟨0, 0⟩ → h ≠ 0 →
      t.load P = ⟨h, 0⟩ → insert_node t P he hash = .done (t, 0)) :=
  C20_empty_slot_invariant demo5_reach

/-! ## Helping a suspended remove during insert -/

theorem IsChain_drop {s : State} {rest : List (Nat × Nat)} (pre : List (Nat × Nat)) :
    ∀ l : Loc, IsChain s l (pre ++ rest) → IsChain s (lastLoc l pre) rest := by
  induction pre with
  | nil => intro l h; exact h
  | cons q pre ih =>
    intro l h
    obtain ⟨e1, g1⟩ := q
    exact ih (.node e1) h.2.2.2

/-- Walk of `list_insert` over the entries in front of a marked entry `T`: the
state `s` agrees with a state `t` that has a well-formed chain everywhere but
at `T`, so each entry in front of `T` is passed in one iteration. -/
theorem list_insert_walk (org : Loc) (he hash T hT : Nat) {s t : State}
    (hag : ∀ l, l ≠ Loc.node T → s.load l = t.load l) (post : List (Nat × Nat)) :
    ∀ (pre : List (Nat × Nat)) (l : Loc) (fuel : Nat) (removed : Int),
      IsChain t l (pre ++ (T, hT) :: post) → T ∉ pre.map Prod.fst → he ∉ pre.map Prod.fst →
      l ≠ .node T →
      list_insert org he hash (fuel + pre.length) s l removed =
        list_insert org he hash fuel s (lastLoc l pre) removed := by
  intro pre
  induction pre with
  | nil => intro l fuel removed _ _ _ _; rfl
  | cons q pre ih =>
    obtain ⟨e1, h1⟩ := q
    intro l fuel removed hch hT1 hhe hl
    obtain ⟨g1, g2, g3, g4⟩ := hch
    have hne : e1 ≠ he := by
      intro h; apply hhe; simp [h]
    have hneT : e1 ≠ T := by
      intro h; apply hT1; simp [h]
    have hload : s.load l = ⟨h1, e1⟩ := (hag l hl).trans g3
    have hmem : s.mem e1 = t.mem e1 := hag (.node e1) (by simpa using hneT)
    have hmk : HAS_MARK (s.mem e1).next = false := by
      rw [hmem]; exact HAS_MARK_even (IsChain_next_even g4)
    have hfuel : fuel + ((e1, h1) :: pre).length = (fuel + pre.length) + 1 := rfl
    rw [hfuel, list_insert]
    simp only [hp_acquire, hload, REM_MARK_even g2, g1, hne, hmk, if_false, lastLoc]
    refine ih (.node e1) fuel removed g4 ?_ ?_ (by simpa using hneT)
    · intro h; apply hT1; simp only [List.map_cons, List.mem_cons]; exact Or.inr h
    · intro h; apply hhe; simp only [List.map_cons, List.mem_cons]; exact Or.inr h

/-- State in which `p64_hashtable_insert` of `C` ends when it meets the marked
entry `T` behind `pre` on the chain off `hd`, helps to unlink it and appends
`C` behind `post`. -/
theorem helped_insert_chain {s0 : State} {hd : Loc} {C T hT : Nat} (hash : Nat)
    {pre post : List (Nat × Nat)}
    (hhd : ∀ p, hd ≠ Loc.node p)
    (hch : IsChain s0 hd (pre ++ (T, hT) :: post))
    (hnd : ((pre ++ (T, hT) :: post).map Prod.fst).Nodup)
    (hC0 : C ≠ 0) (hCev : C % 2 = 0) (hCn : C ∉ (pre ++ (T, hT) :: post).map Prod.fst) :
    ∃ s3, (∀ fuel removed, (pre ++ (T, hT) :: post).length + 1 ≤ fuel →
        list_insert hd C hash fuel ((remove_node_mark s0 T).store (.node C) ⟨0, 0⟩) hd removed =
          .done (s3, removed + 1)) ∧
      IsChain s3 hd (pre ++ post ++ [(C, hash)]) ∧
      s3.nused = s0.nused ∧ s3.nbkts = s0.nbkts ∧
      HAS_MARK (s3.mem T).next = true := by
  -- membership facts
  rw [List.map_append, List.map_cons] at hnd hCn
  have hnd1 := List.nodup_append.mp hnd
  have hnd2 := List.nodup_cons.mp hnd1.2.1
  have hTpre : T ∉ pre.map Prod.fst := fun h => hnd1.2.2 h (List.mem_cons_self _ _)
  have hTpost : T ∉ post.map Prod.fst := hnd2.1
  have hCpre : C ∉ pre.map Prod.fst := fun h => hCn (List.mem_append_left _ h)
  have hCT : C ≠ T := fun h => hCn (List.mem_append_right _ (h ▸ List.mem_cons_self _ _))
  have hCpost : C ∉ post.map Prod.fst :=
    fun h => hCn (List.mem_append_right _ (List.mem_cons_of_mem _ h))
  have hprepost : ∀ p ∈ post, ∀ q ∈ pre, q.1 ≠ p.1 := by
    intro p hp q hq h
    exact hnd1.2.2 (List.mem_map_of_mem Prod.fst hq)
      (List.mem_cons_of_mem _ (h ▸ List.mem_map_of_mem Prod.fst hp))
  have hT0 := (IsChain_mem_ne_zero hch (T, hT) (by simp)).1
  have hTev := (IsChain_mem_ne_zero hch (T, hT) (by simp)).2
  -- the states
  set t0 := s0.store (.node C) ⟨0, 0⟩ with ht0
  set sr := (remove_node_mark s0 T).store (.node C) ⟨0, 0⟩ with hsr
  set P := lastLoc hd pre with hPdef
  have hPT : P ≠ .node T := by
    apply lastLoc_ne (hhd T).symm
    intro p hp h
    apply hTpre
    have : p.1 = T := by simpa using h
    rw [← this]; exact List.mem_map_of_mem Prod.fst hp
  have hPC : P ≠ .node C := by
    apply lastLoc_ne (hhd C).symm
    intro p hp h
    apply hCpre
    have : p.1 = C := by simpa using h
    rw [← this]; exact List.mem_map_of_mem Prod.fst hp
  have hPpost : ∀ p ∈ post, Loc.node p.1 ≠ P := by
    intro p hp h
    have : P ≠ .node p.1 := by
      apply lastLoc_ne (hhd p.1).symm
      intro q hq hq1
      exact hprepost p hp q hq (by simpa using hq1)
    exact this h.symm
  have hcht0 : IsChain t0 hd (pre ++ (T, hT) :: post) := by
    refine IsChain_congr (load_store_ne s0 _ (hhd C)) ?_ hch
    intro p hp
    refine load_store_ne s0 _ (k := .node p.1) ?_
    intro h
    apply hCn
    have : p.1 = C := by simpa using h
    rw [← List.map_cons, ← List.map_append, ← this]
    exact List.mem_map_of_mem Prod.fst hp
  have hag : ∀ l, l ≠ Loc.node T → sr.load l = t0.load l := by
    intro l hl
    by_cases hlc : l = .node C
    · rw [hlc, hsr, ht0, load_store_same, load_store_same]
    · rw [hsr, ht0, load_store_ne _ _ hlc, load_store_ne _ _ hlc, load_mark_ne s0 hl]
  have hdrop := IsChain_drop pre hd hcht0
  obtain ⟨_, _, hPload, hTchain⟩ := hdrop
  have hsrP : sr.load P = ⟨hT, T⟩ := (hag P hPT).trans hPload
  have hsrT : sr.mem T = ⟨(s0.mem T).hash, SET_MARK (s0.mem T).next⟩ := by
    have h1 : sr.load (.node T) = (remove_node_mark s0 T).load (.node T) :=
      load_store_ne _ _ (by simpa using hCT.symm)
    exact h1.trans (mem_mark_same s0 T)
  have ht0T : t0.mem T = s0.mem T :=
    load_store_ne s0 _ (k := .node T) (by simpa using hCT.symm)
  have hn0 : (s0.mem T).next % 2 = 0 := by
    rw [← ht0T]; exact IsChain_next_even hTchain
  -- the state after the helped unlink
  set s2 := (remove_node_mark sr T).store P ⟨(sr.mem T).hash, REM_MARK (sr.mem T).next⟩
    with hs2
  have hneu : (⟨(sr.mem T).hash, REM_MARK (sr.mem T).next⟩ : p64_hashentry) = s0.mem T := by
    rw [hsrT]
    simp only [REM_SET_MARK_even hn0]
  have hs2P : s2.load P = t0.load (.node T) := by
    rw [hs2, load_store_same, hneu]
    exact ht0T.symm
  have hs2other : ∀ l, l ≠ P → l ≠ Loc.node T → s2.load l = t0.load l := by
    intro l h1 h2
    rw [hs2, load_store_ne _ _ h1, load_mark_ne sr h2]
    exact hag l h2
  have hs2C : s2.mem C = ⟨0, 0⟩ := by
    have := hs2other (.node C) hPC.symm (by simpa using hCT)
    exact this.trans (load_store_same s0 (.node C) _)
  have hs2post : IsChain s2 P post := by
    refine IsChain_transport hs2P ?_ hTchain
    intro p hp
    refine hs2other (.node p.1) (hPpost p hp) ?_
    intro h
    apply hTpost
    have : p.1 = T := by simpa using h
    rw [← this]; exact List.mem_map_of_mem Prod.fst hp
  -- the chain off the root after the unlink
  have hu := IsChain_unlink pre post hd hcht0 (by rw [List.map_append, List.map_cons]; exact hnd)
    (fun p _ h => hhd p.1 h.symm)
  have hs2all : ∀ l, l ≠ Loc.node T → s2.load l =
      ((remove_node_mark t0 T).store P (t0.mem T)).load l := by
    intro l hl
    by_cases hlP : l = P
    · rw [hlP, hs2P, load_store_same]; rfl
    · rw [hs2other l hlP hl, load_store_ne _ _ hlP, load_mark_ne t0 hl]
  have hs2chain : IsChain s2 hd (pre ++ post) := by
    refine IsChain_congr (hs2all hd (hhd T)) ?_ hu
    intro p hp
    refine hs2all (.node p.1) ?_
    intro h
    have hpT : p.1 = T := by simpa using h
    rcases List.mem_append.mp hp with hp1 | hp1
    · exact hTpre (hpT ▸ List.mem_map_of_mem Prod.fst hp1)
    · exact hTpost (hpT ▸ List.mem_map_of_mem Prod.fst hp1)
  have hCnew : C ∉ (pre ++ post).map Prod.fst := by
    rw [List.map_append]
    intro h
    rcases List.mem_append.mp h with h | h
    · exact hCpre h
    · exact hCpost h
  have hndnew : ((pre ++ post).map Prod.fst).Nodup := by
    rw [List.map_append]
    refine List.Nodup.append hnd1.1 hnd2.2 ?_
    intro x hx hx1
    exact hnd1.2.2 hx (List.mem_cons_of_mem _ hx1)
  have hfinal := IsChain_append hash hs2C hC0 hCev (pre ++ post) hd hs2chain hCnew hndnew
    (hhd C) (fun p _ h => hhd p.1 h.symm)
  rw [lastLoc_append] at hfinal
  refine ⟨s2.store (lastLoc P post) ⟨hash, C⟩, ?_, hfinal, by simp [hs2, hsr],
    by simp [hs2, hsr], ?_⟩
  · intro fuel removed hf
    rw [List.length_append, List.length_cons] at hf
    obtain ⟨f, hfeq⟩ : ∃ f, fuel = (f + 1) + pre.length := ⟨fuel - pre.length - 1, by omega⟩
    have hfpost : post.length < f := by omega
    rw [hfeq, list_insert_walk hd C hash T hT hag post pre hd (f + 1) removed hcht0 hTpre hCpre
      (hhd T)]
    have hmark : HAS_MARK (sr.mem T).next = true := by
      rw [hsrT]; exact HAS_MARK_SET_MARK _
    have hrn := remove_node_success removed hT0 hTev hsrP hPT
    rw [list_insert]
    simp only [hp_acquire, hsrP, REM_MARK_even hTev, hT0, hCT.symm, hmark, if_false, if_true,
      hrn]
    rw [list_insert_chain hd C hash hs2C post P f (removed + 1) hs2post hCpost, if_pos hfpost]
  · have hne : Loc.node T ≠ lastLoc P post := by
      intro h
      have := lastLoc_ne (l := P) (k := .node T) hPT.symm (by
        intro p hp hq
        apply hTpost
        have : p.1 = T := by simpa using hq
        rw [← this]; exact List.mem_map_of_mem Prod.fst hp)
      exact this h.symm
    have h1 : (s2.store (lastLoc P post) ⟨hash, C⟩).load (.node T) = s2.load (.node T) :=
      load_store_ne _ _ hne
    have h2 : s2.load (.node T) = (remove_node_mark sr T).load (.node T) :=
      load_store_ne _ _ hPT.symm
    have h3 : (s2.store (lastLoc P post) ⟨hash, C⟩).mem T =
        ⟨(sr.mem T).hash, SET_MARK (sr.mem T).next⟩ :=
      (h1.trans h2).trans (mem_mark_same sr T)
    rw [h3]
    exact HAS_MARK_SET_MARK _

/-- C17 (helping during insert): take a state `s0` in which all head slots of
the bucket of `hash` are occupied and the chain off head slot
`hash mod BKT_SIZE` is `pre`, `T`, `post`, and set the REMOVE mark on `T`, as a
remove suspended between its mark step and its unlink step leaves it.  Then
`p64_hashtable_insert(ht, C, hash)` of an entry `C` that is not on the chain
returns, within the length of the chain plus one loop iterations; afterwards
the chain is `pre`, `post`, `C`: `T` is unlinked, the other entries keep their
order and `C` is last; `nused` is as before the call and `T` keeps its mark. -/
theorem C17_helping_insert (s0 : State) (hash C T hT : Nat) (pre post : List (Nat × Nat))
    (hb : s0.nbkts ≠ 0)
    (hfull : ∀ i, i < BKT_SIZE → (s0.buckets (bucketIndex s0 hash) i).next ≠ 0)
    (hch : IsChain s0 (.head (bucketIndex s0 hash) (hash % BKT_SIZE)) (pre ++ (T, hT) :: post))
    (hnd : ((pre ++ (T, hT) :: post).map Prod.fst).Nodup)
    (hC0 : C ≠ 0) (hCev : C % 2 = 0) (hCn : C ∉ (pre ++ (T, hT) :: post).map Prod.fst) :
    HAS_MARK ((remove_node_mark s0 T).mem T).next = true ∧
    ∃ s1, (∀ fuel, (pre ++ (T, hT) :: post).length + 1 ≤ fuel →
        p64_hashtable_insert fuel (remove_node_mark s0 T) C hash = .done s1) ∧
      IsChain s1 (.head (bucketIndex s0 hash) (hash % BKT_SIZE)) (pre ++ post ++ [(C, hash)]) ∧
      T ∉ (pre ++ post ++ [(C, hash)]).map Prod.fst ∧
      s1.nused = (remove_node_mark s0 T).nused ∧
      HAS_MARK (s1.mem T).next = true := by
  refine ⟨by rw [mem_mark_same]; exact HAS_MARK_SET_MARK _, ?_⟩
  obtain ⟨s3, hrun, hchain, hnused, _, hmark⟩ :=
    @helped_insert_chain s0 (.head (bucketIndex s0 hash) (hash % BKT_SIZE)) C T hT hash pre post
      (fun p h => Loc.noConfusion h) hch hnd hC0 hCev hCn
  have hTnew : T ∉ (pre ++ post ++ [(C, hash)]).map Prod.fst := by
    rw [List.map_append, List.map_cons] at hnd hCn
    have hnd1 := List.nodup_append.mp hnd
    have hnd2 := List.nodup_cons.mp hnd1.2.1
    simp only [List.map_append, List.map_cons, List.map_nil, List.mem_append,
      List.mem_singleton]
    rintro ((h | h) | h)
    · exact hnd1.2.2 h (List.mem_cons_self _ _)
    · exact hnd2.1 h
    · exact hCn (List.mem_append_right _ (h ▸ List.mem_cons_self _ _))
  refine ⟨s3, ?_, hchain, hTnew, by simpa using hnused, hmark⟩
  intro fuel hf
  have hmask : (List.range BKT_SIZE).filter (fun i =>
      (((remove_node_mark s0 T).store (.node C) ⟨0, 0⟩).buckets (bucketIndex s0 hash) i).next
        = 0) = [] := by
    rw [List.filter_eq_nil_iff]
    intro i hi
    have := hfull i (List.mem_range.mp hi)
    simpa [State.store] using this
  have h1 : bucket_insert ((remove_node_mark s0 T).store (.node C) ⟨0, 0⟩)
      (bucketIndex s0 hash) C hash =
      .done ((remove_node_mark s0 T).store (.node C) ⟨0, 0⟩, false) := by
    unfold bucket_insert; rw [hmask]; rfl
  have h2 := hrun fuel (-1) hf
  unfold p64_hashtable_insert
  rw [if_neg (by simpa using hb), if_neg hC0]
  simp only [bucketIndex, nbkts_mark] at h1 h2 ⊢
  simp only [h1, h2]
  simp [account_zero]

theorem C17_helping_insert_witness :
    HAS_MARK ((remove_node_mark demo5 80).mem 80).next = true ∧
    ∃ s1, (∀ fuel, ([(32, 5)] ++ (80, 5) :: []).length + 1 ≤ fuel →
        p64_hashtable_insert fuel (remove_node_mark demo5 80) 96 5 = .done s1) ∧
      IsChain s1 (.head (bucketIndex demo5 5) (5 % BKT_SIZE)) ([(32, 5)] ++ [] ++ [(96, 5)]) ∧
      80 ∉ ([(32, 5)] ++ [] ++ [(96, 5)]).map Prod.fst ∧
      s1.nused = (remove_node_mark demo5 80).nused ∧
      HAS_MARK (s1.mem 80).next = true :=
  C17_helping_insert demo5 5 96 80 5 [(32, 5)] [] (by decide)
    (by intro i hi; unfold BKT_SIZE at hi; interval_cases i <;> decide)
    ⟨by decide, by decide, rfl, by decide, by decide, rfl, rfl⟩
    (by decide) (by decide) (by decide) (by decide)

end P64
